import Mathlib

/-!
Verification of the Eratosthenes prime generator (vm6502q/Eratosthenes).

This file gives a shallow embedding, over `Nat`, of the wheel-factorized
Sieve of Eratosthenes from `src/prime_gen.cpp` together with the index
mappers and wheel-increment generator from `prime_generator.hpp` and the
table-based wheel maps of the big-integer variant, and proves the claims
of the specification against it.

Modelling conventions:
- `BigInteger` and `size_t` values are modelled as `Nat`.  The build under
  scrutiny configures `BigInteger` as `uint64_t`; all quantities that
  arise in a run of the sieve stay far below `2 ^ 64` except where a
  claim is precisely about overflow, and there the wraparound is modelled
  explicitly (`decWrap64`, and `p * p % 2 ^ 64` in the overflow claim).
- The C bit trick `~(~p | 1U)` clears the low bit of `p`, i.e. it equals
  `p - p % 2`; it is written that way here.
- The `notPrime` boolean array is modelled as a bit mask (`Nat`), indexed
  by `Nat.testBit`; `notPrime[i] = true` becomes `np ||| (1 <<< i)`.
- The dispatch queue runs marking jobs asynchronously between barriers;
  jobs only ever write `true` into disjoint cells, and the main loop
  reads the array only behind the `threadBoundary` barrier discipline.
  The embedding runs each dispatched job synchronously at its dispatch
  point (one legal schedule); `dispatch.finish()` is a no-op.  The
  `threadBoundary` bookkeeping is kept in the state for fidelity even
  though it influences no result.
- Unbounded C loops (`for (;;)`, `do/while`, `while`) become fueled
  structural recursions; every caller passes fuel that is proved (or, for
  results that do not depend on completion, argued) sufficient.
-/

set_option maxRecDepth 8000

namespace Eratosthenes

/-! ## Index mappers (wheel arithmetic), from prime_generator.hpp -/

/-- Embedding of `forward` (prime_generator.hpp): `(p << 1U) + (~(~p | 1U)) - 1U`.
The bit trick `~(~p | 1U)` clears the low bit, i.e. equals `p - p % 2`.
Maps a compacted index to the corresponding number coprime to 2 and 3. -/
def forward (p : Nat) : Nat := (p <<< 1) + (p - p % 2) - 1

/-- Embedding of `backward` (prime_generator.hpp): `((~((~n) | 1U)) / 3U) + 1U`,
i.e. `(n - n % 2) / 3 + 1`. -/
def backward (n : Nat) : Nat := (n - n % 2) / 3 + 1

/-- Embedding of `forward2` (prime_generator.hpp): `(p << 1U) - 1U`. -/
def forward2 (p : Nat) : Nat := (p <<< 1) - 1

/-- Embedding of `backward2` (prime_generator.hpp): `(p + 1U) >> 1U`. -/
def backward2 (p : Nat) : Nat := (p + 1) >>> 1

/-- Embedding of the closed-form `backward5` (prime_generator.hpp):
`(((((n + 1U) << 2U) / 5U + 1U) << 1U) / 3U + 1U) >> 1U`, over
unbounded naturals. -/
def backward5 (n : Nat) : Nat := (((((n + 1) <<< 2) / 5 + 1) <<< 1) / 3 + 1) >>> 1

/-- The same closed-form `backward5` as compiled in the
`BIG_INT_BITS = 64` build, where `BigInteger` is `uint64_t`: every
addition and left shift is reduced modulo 2^64. -/
def backward5U64 (n : Nat) : Nat :=
  let a := (((n + 1) % 2 ^ 64) <<< 2) % 2 ^ 64 / 5
  let b := (((a + 1) % 2 ^ 64) <<< 1) % 2 ^ 64 / 3
  ((b + 1) % 2 ^ 64) >>> 1

/-- Distance from the start of a sorted array to `std::lower_bound`,
i.e. the number of elements strictly below `v`. -/
def lowerBoundIdx (l : List Nat) (v : Nat) : Nat := l.countP (fun x => decide (x < v))

/-- Distance from the start of a sorted array to `std::upper_bound`,
i.e. the number of elements at most `v`. -/
def upperBoundIdx (l : List Nat) (v : Nat) : Nat := l.countP (fun x => decide (x ≤ v))

/-- Residue table `wheel5` of the big-integer variant: the residues mod 30
coprime to 30. -/
def wheel5Table : List Nat := [1, 7, 11, 13, 17, 19, 23, 29]

/-- Embedding of the table-based `forward5` (big-integer variant):
`wheel5[p % 8U] + (p / 8U) * 30U`. -/
def forward5 (p : Nat) : Nat := wheel5Table.getD (p % 8) 0 + (p / 8) * 30

/-- Embedding of the table-based `backward5` (big-integer variant):
`std::distance(wheel5, std::lower_bound(wheel5, wheel5 + 8U, n % 30U)) + 8U * (n / 30U) + 1U`. -/
def backward5Table (n : Nat) : Nat := lowerBoundIdx wheel5Table (n % 30) + 8 * (n / 30) + 1

/-- Residue table `wheel7`: the 48 residues mod 210 coprime to 210. -/
def wheel7Table : List Nat :=
  [1, 11, 13, 17, 19, 23, 29, 31, 37, 41, 43, 47, 53, 59, 61, 67, 71, 73, 79, 83, 89,
   97, 101, 103, 107, 109, 113, 121, 127, 131, 137, 139, 143, 149, 151, 157, 163, 167,
   169, 173, 179, 181, 187, 191, 193, 197, 199, 209]

/-- Embedding of the table-based `forward7` (big-integer variant):
`wheel7[p % 48U] + (p / 48U) * 210U`. -/
def forward7 (p : Nat) : Nat := wheel7Table.getD (p % 48) 0 + (p / 48) * 210

/-- Embedding of `backward7` (prime_generator.hpp and big-integer variant):
lower-bound search over the 48-entry table plus `48U * (n / 210U) + 1U`. -/
def backward7 (n : Nat) : Nat := lowerBoundIdx wheel7Table (n % 210) + 48 * (n / 210) + 1

/-! ## Wheel increment generator -/

/-- One run of the `do { ... } while (is_wheel_multiple)` loop of
`GetWheel5and7Increment`, with explicit fuel for the trip count.
State is the pair of rotating registers `(wheel5, wheel7)`; the result is
`some (increment, nextState)`, or `none` if the fuel is exhausted (never
happens from any state reachable from the documented initial registers,
as proved below). -/
def wheelIncAux : Nat → Nat × Nat → Nat → Option (Nat × (Nat × Nat))
  | 0, _, _ => none
  | fuel + 1, (w5, w7), acc =>
    if w5 &&& 1 = 1 then
      wheelIncAux fuel ((w5 >>> 1) ||| (1 <<< 9), w7) (acc + 1)
    else if w7 &&& 1 = 1 then
      wheelIncAux fuel (w5 >>> 1, (w7 >>> 1) ||| (1 <<< 55)) (acc + 1)
    else
      some (acc + 1, (w5 >>> 1, w7 >>> 1))

/-- Embedding of `GetWheel5and7Increment` (prime_generator.hpp).  The trip
count of the inner do/while never exceeds 35 from reachable states (it is
in fact at most 3; proved reachable-state by reachable-state below), so
fuel 35 makes the fallback branch dead code. -/
def GetWheel5and7Increment (w : Nat × Nat) : Nat × (Nat × Nat) :=
  (wheelIncAux 35 w 0).getD (1, w)

/-- Documented initial register states: `wheel5 = 129U`,
`wheel7 = 9009416540524545ULL`. -/
def wheelInit : Nat × Nat := (129, 9009416540524545)

/-- Register state after `k` calls to `GetWheel5and7Increment`, starting
from the documented initial registers. -/
def wIter (k : Nat) : Nat × Nat :=
  (fun w => (GetWheel5and7Increment w).2)^[k] wheelInit

/-- Increment returned by the `(k+1)`-st call to `GetWheel5and7Increment`. -/
def incSeq (k : Nat) : Nat := (GetWheel5and7Increment (wIter k)).1

/-- Candidate-index trajectory of the sieve: `o` starts at 1 and is
stepped by the successive wheel increments. -/
def oSeq : Nat → Nat
  | 0 => 1
  | k + 1 => oSeq k + incSeq k

/-! ## Marking job of the main sieve (the dispatched lambda) -/

/-- Embedding of `if (i % 5U) { notPrime[backward5(i)] = true; }`. -/
def setBit5 (np i : Nat) : Nat := if i % 5 ≠ 0 then np ||| (1 <<< backward5 i) else np

/-- Embedding of the `for (;;)` marking loop inside the dispatched job of
`SieveOfEratosthenes` / `CountPrimesTo`: starting at `i` (a multiple of
`p` whose quotient is 1 mod 6), mark `backward5 i` unless `i` is a
multiple of 5, advance by `4p` then by `2p`, stopping as soon as the next
position passes `n`. -/
def markLoop (n p : Nat) : Nat → Nat → Nat → Nat
  | 0, _, np => np
  | fuel + 1, i, np =>
    if i + (p <<< 2) > n then setBit5 np i
    else if i + (p <<< 2) + (p <<< 1) > n then setBit5 (setBit5 np i) (i + (p <<< 2))
    else markLoop n p fuel (i + (p <<< 2) + (p <<< 1)) (setBit5 (setBit5 np i) (i + (p <<< 2)))

/-- Embedding of the whole dispatched marking job for a freshly found
prime `p`: start at `i = p * p`; if `p % 3 == 2` do the documented half
iteration first (mark `p * p`, advance by `2p`), then run `markLoop`. -/
def markFor (n p np : Nat) : Nat :=
  if p % 3 = 2 then
    if p * p + (p <<< 1) > n then np ||| (1 <<< backward5 (p * p))
    else markLoop n p n (p * p + (p <<< 1)) (np ||| (1 <<< backward5 (p * p)))
  else markLoop n p n (p * p) np

/-! ## SieveOfEratosthenes (prime_gen.cpp) -/

/-- Result state of the first `for (;;)` loop of `SieveOfEratosthenes`. -/
structure Loop1Out where
  o : Nat
  w : Nat × Nat
  tb : Nat
  np : Nat
  primes : List Nat

/-- Embedding of the first `for (;;)` loop of `SieveOfEratosthenes`:
advance `o` by the wheel increment, stop when `p * p > n`, otherwise
update the thread boundary, skip marked candidates, and push/mark fresh
primes.  The dispatched job runs synchronously (see the header comment). -/
def sieveLoop1 (n : Nat) : Nat → Nat → Nat × Nat → Nat → Nat → List Nat → Loop1Out
  | 0, o, w, tb, np, primes => ⟨o, w, tb, np, primes⟩
  | fuel + 1, o, w, tb, np, primes =>
    let r := GetWheel5and7Increment w
    let o1 := o + r.1
    let p := forward o1
    if p * p > n then ⟨o1, r.2, tb, np, primes⟩
    else
      let tb1 := if tb < p then tb * tb else tb
      if np.testBit (backward5 p) then sieveLoop1 n fuel o1 r.2 tb1 np primes
      else sieveLoop1 n fuel o1 r.2 tb1 (markFor n p np) (primes ++ [p])

/-- Embedding of the second (drain) `for (;;)` loop of
`SieveOfEratosthenes`: walk the remaining candidates up to `n` and push
the unmarked ones. -/
def sieveLoop2 (n : Nat) : Nat → Nat → Nat × Nat → Nat → List Nat → List Nat
  | 0, _, _, _, primes => primes
  | fuel + 1, o, w, np, primes =>
    let p := forward o
    if p > n then primes
    else
      let r := GetWheel5and7Increment w
      if np.testBit (backward5 p) then sieveLoop2 n fuel (o + r.1) r.2 np primes
      else sieveLoop2 n fuel (o + r.1) r.2 np (primes ++ [p])

/-- Embedding of `SieveOfEratosthenes` (prime_gen.cpp).  The seed list is
`{2, 3, 5, 7}`; `n < knownPrimes.back() + 2U` is `n < 9`; the
`std::upper_bound` slice of the seed list is its prefix of elements at
most `n`.  The loops get fuel `n + 2`, proved sufficient below. -/
def SieveOfEratosthenes (n : Nat) : List Nat :=
  let knownPrimes : List Nat := [2, 3, 5, 7]
  if n < 2 then []
  else if n < 9 then knownPrimes.takeWhile (fun q => decide (q ≤ n))
  else
    let st := sieveLoop1 n (n + 2) 1 wheelInit 36 0 knownPrimes
    sieveLoop2 n (n + 2) st.o st.w st.np st.primes

/-! ## CountPrimesTo (prime_gen.cpp), the copy/pasted counting variant -/

/-- Result state of the first `for (;;)` loop of `CountPrimesTo`. -/
structure CLoop1Out where
  o : Nat
  w : Nat × Nat
  tb : Nat
  np : Nat
  count : Nat

/-- Embedding of the first `for (;;)` loop of `CountPrimesTo`; identical
control flow to `sieveLoop1` with `++count` in place of `push_back`. -/
def countLoop1 (n : Nat) : Nat → Nat → Nat × Nat → Nat → Nat → Nat → CLoop1Out
  | 0, o, w, tb, np, count => ⟨o, w, tb, np, count⟩
  | fuel + 1, o, w, tb, np, count =>
    let r := GetWheel5and7Increment w
    let o1 := o + r.1
    let p := forward o1
    if p * p > n then ⟨o1, r.2, tb, np, count⟩
    else
      let tb1 := if tb < p then tb * tb else tb
      if np.testBit (backward5 p) then countLoop1 n fuel o1 r.2 tb1 np count
      else countLoop1 n fuel o1 r.2 tb1 (markFor n p np) (count + 1)

/-- Embedding of the drain loop of `CountPrimesTo`. -/
def countLoop2 (n : Nat) : Nat → Nat → Nat × Nat → Nat → Nat → Nat
  | 0, _, _, _, count => count
  | fuel + 1, o, w, np, count =>
    let p := forward o
    if p > n then count
    else
      let r := GetWheel5and7Increment w
      if np.testBit (backward5 p) then countLoop2 n fuel (o + r.1) r.2 np count
      else countLoop2 n fuel (o + r.1) r.2 np (count + 1)

/-- Embedding of `CountPrimesTo` (prime_gen.cpp).  Small-input branch is
`n < 11U` with the `std::upper_bound` distance over the constant array;
the main path starts the running count at 4. -/
def CountPrimesTo (n : Nat) : Nat :=
  if n < 2 then 0
  else if n < 11 then (([2, 3, 5, 7] : List Nat).takeWhile (fun q => decide (q ≤ n))).length
  else
    let st := countLoop1 n (n + 2) 1 wheelInit 36 0 4
    countLoop2 n (n + 2) st.o st.w st.np st.count

/-! ## Segmented sieve (prime_gen.cpp) -/

/-- Embedding of the window size constant `limit = 4194304ULL`. -/
def limit : Nat := 4194304

/-- Embedding of the simple-sieve threshold `limit_simple = 31457281ULL`. -/
def limitSimple : Nat := 31457281

/-- Embedding of `if (!(n & 1U)) { --n; }` on `uint64_t`: even n
(including 0) is decremented modulo 2^64. -/
def adjustOdd (n : Nat) : Nat := if n % 2 = 0 then (n + (2 ^ 64 - 1)) % 2 ^ 64 else n

/-- Embedding of the do/while body of the binary-search `sqrt` of
prime_generator.hpp, with the `while (start <= end)` test after each
body execution; `ans` tracks the best floor candidate.  The `end = mid -
1` branch is only ever taken with `mid ≥ 1` (else `mid * mid = 0 ≤
toTest` puts us in another branch). -/
def sqrtBILoop (toTest : Nat) : Nat → Nat → Nat → Nat → Nat
  | 0, _, _, ans => ans
  | fuel + 1, start, stop, ans =>
    if ((start + stop) >>> 1) * ((start + stop) >>> 1) = toTest then (start + stop) >>> 1
    else if ((start + stop) >>> 1) * ((start + stop) >>> 1) < toTest then
      (if (start + stop) >>> 1 + 1 ≤ stop then
        sqrtBILoop toTest fuel ((start + stop) >>> 1 + 1) stop ((start + stop) >>> 1)
      else (start + stop) >>> 1)
    else
      (if start ≤ (start + stop) >>> 1 - 1 then
        sqrtBILoop toTest fuel start ((start + stop) >>> 1 - 1) ans
      else ans)

/-- Embedding of `sqrt(toTest)` from prime_generator.hpp:
`start = 1, end = toTest >> 1, ans = 0`, then the do/while loop.  The
search interval shrinks every iteration, so fuel `toTest + 2` always
suffices. -/
def sqrtBI (toTest : Nat) : Nat := sqrtBILoop toTest (toTest + 2) 1 (toTest >>> 1) 0

/-- Embedding of the `for (;;)` stride loop of the segmented marking job:
`o = backward2(i) - low`, stop once `o > cardinality`, else mark and
advance by `2p`. -/
def segInner (low cardinality p2 : Nat) : Nat → Nat → Nat → Nat
  | 0, _, np => np
  | fuel + 1, i, np =>
    if backward2 i - low > cardinality then np
    else segInner low cardinality p2 fuel (i + p2) (np ||| (1 <<< (backward2 i - low)))

/-- Embedding of one dispatched segmented marking job for prime p: the
first multiple of p at or after `fLo`, made odd, then the stride loop.
`backward2` advances by `p ≥ 1` per stride, so fuel `low + cardinality +
2` always suffices. -/
def segMarkPrime (fLo low cardinality p np : Nat) : Nat :=
  segInner low cardinality (p <<< 1) (low + cardinality + 2)
    (if ((fLo / p) * p + (if (fLo / p) * p < fLo then p else 0)) % 2 = 0 then
      (fLo / p) * p + (if (fLo / p) * p < fLo then p else 0) + p
    else (fLo / p) * p + (if (fLo / p) * p < fLo then p else 0)) np

/-- Embedding of the `for (size_t k = 1U; k < sqrtIndex; ++k)` dispatch
loop over the factor base (jobs run synchronously). -/
def segMarkAll (kp : List Nat) (sqrtIndex fLo low cardinality : Nat) : Nat :=
  (List.range' 1 (sqrtIndex - 1)).foldl
    (fun np k => segMarkPrime fLo low cardinality (kp.getD k 0) np) 0

/-- Embedding of the scan `for (o = 1; o <= cardinality; ++o) if
(!notPrime[o]) push_back(forward2(o + low))`. -/
def segCollect (np low cardinality : Nat) : List Nat :=
  ((List.range' 1 cardinality).filter (fun o => !(np.testBit o))).map
    (fun o => forward2 (o + low))

/-- Embedding of the window `while (low < nCardinality)` loop of
`SegmentedSieveOfEratosthenes`.  `low` advances by `limit` every
iteration, so fuel `nCard + 2` always suffices. -/
def segWindows (nCard : Nat) : Nat → Nat → Nat → List Nat → List Nat
  | 0, _, _, kp => kp
  | fuel + 1, low, high, kp =>
    if low < nCard then
      segWindows nCard fuel (low + limit) (low + limit + limit)
        (kp ++ segCollect
          (segMarkAll kp
            (upperBoundIdx kp (sqrtBI (forward2 (if high > nCard then nCard else high)) + 1))
            (forward2 low) low ((if high > nCard then nCard else high) - low))
          low ((if high > nCard then nCard else high) - low))
    else kp

/-- Embedding of `SegmentedSieveOfEratosthenes` (prime_gen.cpp). -/
def SegmentedSieveOfEratosthenes (n0 : Nat) : List Nat :=
  let n := adjustOdd n0
  if limitSimple ≥ n then SieveOfEratosthenes n
  else
    let low := backward2 limitSimple
    segWindows (backward2 n) (backward2 n + 2) low (low + limit)
      (SieveOfEratosthenes limitSimple)

/-- Embedding of the count-only scan of a window when the factor base is
already complete (`knownPrimes.back() > sqrtnp1`). -/
def segCountScan (np cardinality : Nat) : Nat :=
  ((List.range' 1 cardinality).filter (fun o => !(np.testBit o))).length

/-- Embedding of the scan of a window that still extends the factor base
with the primes up to `sqrtnp1`. -/
def segCountScanExtend (np low cardinality sqrtnp1 : Nat) (kp : List Nat) (count : Nat) :
    List Nat × Nat :=
  (List.range' 1 cardinality).foldl
    (fun acc o =>
      if np.testBit o then acc
      else if forward2 (o + low) ≤ sqrtnp1 then (acc.1 ++ [forward2 (o + low)], acc.2 + 1)
      else (acc.1, acc.2 + 1))
    (kp, count)

/-- Embedding of the window loop of `SegmentedCountPrimesTo`. -/
def segCountWindows (nCard sqrtnp1 : Nat) : Nat → Nat → Nat → List Nat → Nat → Nat
  | 0, _, _, _, count => count
  | fuel + 1, low, high, kp, count =>
    if low < nCard then
      if kp.getLastD 0 > sqrtnp1 then
        segCountWindows nCard sqrtnp1 fuel (low + limit) (low + limit + limit) kp
          (count + segCountScan
            (segMarkAll kp
              (upperBoundIdx kp (sqrtBI (forward2 (if high > nCard then nCard else high)) + 1))
              (forward2 low) low ((if high > nCard then nCard else high) - low))
            ((if high > nCard then nCard else high) - low))
      else
        segCountWindows nCard sqrtnp1 fuel (low + limit) (low + limit + limit)
          (segCountScanExtend
            (segMarkAll kp
              (upperBoundIdx kp (sqrtBI (forward2 (if high > nCard then nCard else high)) + 1))
              (forward2 low) low ((if high > nCard then nCard else high) - low))
            low ((if high > nCard then nCard else high) - low) sqrtnp1 kp count).1
          (segCountScanExtend
            (segMarkAll kp
              (upperBoundIdx kp (sqrtBI (forward2 (if high > nCard then nCard else high)) + 1))
              (forward2 low) low ((if high > nCard then nCard else high) - low))
            low ((if high > nCard then nCard else high) - low) sqrtnp1 kp count).2
    else count

/-- Embedding of `SegmentedCountPrimesTo` (prime_gen.cpp). -/
def SegmentedCountPrimesTo (n0 : Nat) : Nat :=
  let n := adjustOdd n0
  if limitSimple ≥ n then CountPrimesTo n
  else
    let sqrtnp1 := sqrtBI n + 1
    let practicalLimit := (min sqrtnp1 limitSimple) ||| 1
    let kp := SieveOfEratosthenes practicalLimit
    let low := backward2 practicalLimit
    segCountWindows (backward2 n) sqrtnp1 (backward2 n + 2) low (low + limit) kp kp.length

/-- Wrapped square comparison: what `(p * p) > n` computes in the
`BIG_INT_BITS = 64` build, where the product is taken modulo 2^64. -/
def sqGtWrapped (p n : Nat) : Bool := decide (p * p % 2 ^ 64 > n)

/-- Exact square comparison `(p * p) > n` over unbounded integers. -/
def sqGtExact (p n : Nat) : Bool := decide (p * p > n)

/-- The main sieve loop reaches its kc-th candidate exactly when no
earlier candidate made the (wrapped, as compiled) exit test fire. -/
def reachesCand (n kc : Nat) : Prop :=
  ∀ j, 1 ≤ j → j < kc → sqGtWrapped (forward (oSeq j)) n = false

/-- Modelled from the spec: the reference trial-division primality
predicate, `2 ≤ p` and no divisor d with `2 ≤ d ≤ sqrt p` divides p
(the bound `d ≤ sqrt p` is written in its equivalent multiplicative form
`d * d ≤ p`, which keeps the predicate kernel-computable). -/
def isPrimeRef (p : Nat) : Bool :=
  decide (2 ≤ p) &&
    (List.range p).all (fun d => !(decide (2 ≤ d) && decide (d * d ≤ p) && decide (d ∣ p)))

/-- Ordered list of all reference primes up to n inclusive. -/
def primesUpTo (n : Nat) : List Nat := (List.range (n + 1)).filter isPrimeRef

/-- Half-open interval `[a, b)` as an ordered list. -/
def natsIco (a b : Nat) : List Nat := List.range' a (b - a)

/-- Marking invariant: after the sieve has processed every candidate
prime strictly below `cutoff`, the bit of a value m is set exactly when
m is at most n, avoids the 5-hole, lies on the base-6 wheel, and has a
prime factor q, 11 ≤ q < cutoff, coprime to 210, with q² ≤ m. -/
def MarkedBy (n cutoff m : Nat) : Prop :=
  m ≤ n ∧ m % 5 ≠ 0 ∧ Nat.Coprime m 6 ∧
    ∃ q, q.Prime ∧ Nat.Coprime q 210 ∧ 11 ≤ q ∧ q < cutoff ∧ q ∣ m ∧ q * q ≤ m

/-- Postcondition of the first sieve loop, at final trajectory index kf:
the loop stops having advanced to the first candidate whose square
exceeds n, with the bit mask holding exactly the multiples-marks of every
candidate prime below that cutoff, and the prime list holding 2, 3, 5, 7
followed by every prime in [11, cutoff). -/
def Loop1Post (n kf : Nat) (st : Loop1Out) : Prop :=
  st.o = oSeq (kf + 1) ∧ st.w = wIter (kf + 1) ∧
    n < forward (oSeq (kf + 1)) * forward (oSeq (kf + 1)) ∧
    (∀ j, 1 ≤ j → j ≤ kf → forward (oSeq j) * forward (oSeq j) ≤ n) ∧
    (∀ j, st.np.testBit j = true ↔
      ∃ m, MarkedBy n (forward (oSeq (kf + 1))) m ∧ j = backward5 m) ∧
    st.primes = [2, 3, 5, 7] ++ (natsIco 2 (forward (oSeq (kf + 1)))).filter
      (fun v => isPrimeRef v && decide (11 ≤ v))

/-! ## Arithmetic restatements of the bit-level definitions -/

theorem forward_eq (p : Nat) : forward p = 2 * p + (p - p % 2) - 1 := by
  simp [forward, Nat.shiftLeft_eq]; ring_nf

theorem backward2_eq (p : Nat) : backward2 p = (p + 1) / 2 := by
  simp [backward2, Nat.shiftRight_eq_div_pow]

theorem forward2_eq (p : Nat) : forward2 p = 2 * p - 1 := by
  simp [forward2, Nat.shiftLeft_eq, Nat.mul_comm]

theorem backward5_eq (n : Nat) :
    backward5 n = ((((n + 1) * 4) / 5 + 1) * 2 / 3 + 1) / 2 := by
  simp [backward5, Nat.shiftLeft_eq, Nat.shiftRight_eq_div_pow]

/-! ## Residue characterizations of coprimality -/

theorem coprime_mod_right (a n : Nat) (hn : 0 < n) :
    Nat.Coprime a n ↔ Nat.Coprime (a % n) n := by
  unfold Nat.Coprime
  rw [Nat.gcd_comm a n, Nat.gcd_rec n a, Nat.gcd_comm (a % n) n]

theorem coprime_six (n : Nat) : Nat.Coprime n 6 ↔ (n % 6 = 1 ∨ n % 6 = 5) := by
  rw [coprime_mod_right n 6 (by norm_num)]
  have h : n % 6 < 6 := Nat.mod_lt _ (by norm_num)
  revert h
  generalize n % 6 = r
  intro h
  interval_cases r <;> simp [Nat.Coprime]

theorem coprime_five (n : Nat) : Nat.Coprime n 5 ↔ n % 5 ≠ 0 := by
  rw [coprime_mod_right n 5 (by norm_num)]
  have h : n % 5 < 5 := Nat.mod_lt _ (by norm_num)
  revert h
  generalize n % 5 = r
  intro h
  interval_cases r <;> simp [Nat.Coprime]

theorem coprime_30_iff (n : Nat) : Nat.Coprime n 30 ↔ Nat.Coprime n 6 ∧ Nat.Coprime n 5 := by
  have : (30 : Nat) = 6 * 5 := by norm_num
  rw [this, Nat.coprime_mul_iff_right]

theorem coprime_210_iff (n : Nat) :
    Nat.Coprime n 210 ↔ Nat.Coprime n 30 ∧ Nat.Coprime n 7 := by
  have : (210 : Nat) = 30 * 7 := by norm_num
  rw [this, Nat.coprime_mul_iff_right]

theorem coprime_35_iff (n : Nat) : Nat.Coprime n 35 ↔ Nat.Coprime n 5 ∧ Nat.Coprime n 7 := by
  have : (35 : Nat) = 5 * 7 := by norm_num
  rw [this, Nat.coprime_mul_iff_right]

theorem coprime_210_iff' (n : Nat) :
    Nat.Coprime n 210 ↔ Nat.Coprime n 6 ∧ Nat.Coprime n 35 := by
  rw [coprime_210_iff, coprime_30_iff, coprime_35_iff]
  tauto

/-! ## Round-trip properties of the index mappers -/

theorem backward_forward {i : Nat} (hi : 1 ≤ i) : backward (forward i) = i := by
  rw [forward_eq]; unfold backward; omega

theorem forward_backward {n : Nat} (hn : Nat.Coprime n 6) : forward (backward n) = n := by
  rw [coprime_six] at hn
  rw [forward_eq]; unfold backward; omega

theorem backward2_forward2 {i : Nat} (hi : 1 ≤ i) : backward2 (forward2 i) = i := by
  rw [backward2_eq, forward2_eq]; omega

theorem forward2_backward2 {n : Nat} (hn : n % 2 = 1) : forward2 (backward2 n) = n := by
  rw [backward2_eq, forward2_eq]; omega

theorem forward_one_le {o : Nat} (ho : 1 ≤ o) : o ≤ forward o := by
  rw [forward_eq]; omega

theorem forward_lt_forward {a b : Nat} (ha : 1 ≤ a) (hab : a < b) :
    forward a < forward b := by
  rw [forward_eq, forward_eq]; omega

theorem forward_lt_iff {a b : Nat} (ha : 1 ≤ a) (hb : 1 ≤ b) :
    forward a < forward b ↔ a < b := by
  rw [forward_eq, forward_eq]; omega

theorem forward_mod_six (o : Nat) (ho : 1 ≤ o) :
    forward o % 6 = 1 ∨ forward o % 6 = 5 := by
  rw [forward_eq]; omega

theorem coprime_six_forward (o : Nat) (ho : 1 ≤ o) : Nat.Coprime (forward o) 6 := by
  rw [coprime_six]; exact forward_mod_six o ho

theorem one_le_backward (n : Nat) : 1 ≤ backward n := by
  unfold backward; omega

theorem forward_add_mul_70 (x q : Nat) (hx : 1 ≤ x) :
    forward (x + 70 * q) = forward x + 210 * q := by
  have hmod : (x + 70 * q) % 2 = x % 2 := by
    have h : x + 70 * q = x + 35 * q * 2 := by ring
    rw [h, Nat.add_mul_mod_self_right]
  rw [forward_eq, forward_eq]; omega

theorem coprime_35_add_210 (y q : Nat) :
    Nat.Coprime (y + 210 * q) 35 ↔ Nat.Coprime y 35 := by
  unfold Nat.Coprime
  rw [Nat.gcd_comm (y + 210 * q) 35, Nat.gcd_comm y 35]
  have h : y + 210 * q = y + 6 * q * 35 := by ring
  rw [h, Nat.gcd_add_mul_right_right]

/-! ## The table-based 5- and 7-wheel maps are off by one -/

theorem wheel5_table_facts :
    ∀ j < 8, wheel5Table.getD j 0 < 30 ∧
      lowerBoundIdx wheel5Table (wheel5Table.getD j 0) = j := by decide

theorem wheel7_table_facts :
    ∀ j < 48, wheel7Table.getD j 0 < 210 ∧
      lowerBoundIdx wheel7Table (wheel7Table.getD j 0) = j := by decide

theorem backward5Table_forward5 (i : Nat) : backward5Table (forward5 i) = i + 1 := by
  have h8 : i % 8 < 8 := Nat.mod_lt _ (by norm_num)
  obtain ⟨hlt, hidx⟩ := wheel5_table_facts (i % 8) h8
  unfold forward5 backward5Table
  set c := wheel5Table.getD (i % 8) 0 with hc
  have hmod : (c + i / 8 * 30) % 30 = c := by omega
  have hdiv : (c + i / 8 * 30) / 30 = i / 8 := by omega
  rw [hmod, hdiv, hidx]
  omega

theorem backward7_forward7 (i : Nat) : backward7 (forward7 i) = i + 1 := by
  have h48 : i % 48 < 48 := Nat.mod_lt _ (by norm_num)
  obtain ⟨hlt, hidx⟩ := wheel7_table_facts (i % 48) h48
  unfold forward7 backward7
  set c := wheel7Table.getD (i % 48) 0 with hc
  have hmod : (c + i / 48 * 210) % 210 = c := by omega
  have hdiv : (c + i / 48 * 210) / 210 = i / 48 := by omega
  rw [hmod, hdiv, hidx]
  omega

theorem wheel5_residue_facts :
    ∀ r < 30, Nat.gcd r 30 = 1 →
      lowerBoundIdx wheel5Table r < 8 ∧ wheel5Table.getD (lowerBoundIdx wheel5Table r) 0 = r := by
  decide

theorem wheel7_residue_facts :
    ∀ r < 210, Nat.gcd r 210 = 1 →
      lowerBoundIdx wheel7Table r < 48 ∧
        wheel7Table.getD (lowerBoundIdx wheel7Table r) 0 = r := by
  decide

theorem forward5_backward5Table {n : Nat} (hn : Nat.Coprime n 30) :
    forward5 (backward5Table n - 1) = n := by
  have hr : Nat.Coprime (n % 30) 30 := (coprime_mod_right n 30 (by norm_num)).mp hn
  have h30 : n % 30 < 30 := Nat.mod_lt _ (by norm_num)
  obtain ⟨hlt, hval⟩ := wheel5_residue_facts (n % 30) h30 hr
  unfold backward5Table forward5
  set j := lowerBoundIdx wheel5Table (n % 30) with hj
  have h1 : j + 8 * (n / 30) + 1 - 1 = j + 8 * (n / 30) := by omega
  have h2 : (j + 8 * (n / 30)) % 8 = j := by omega
  have h3 : (j + 8 * (n / 30)) / 8 = n / 30 := by omega
  rw [h1, h2, h3, hval]
  omega

theorem forward7_backward7 {n : Nat} (hn : Nat.Coprime n 210) :
    forward7 (backward7 n - 1) = n := by
  have hr : Nat.Coprime (n % 210) 210 := (coprime_mod_right n 210 (by norm_num)).mp hn
  have h210 : n % 210 < 210 := Nat.mod_lt _ (by norm_num)
  obtain ⟨hlt, hval⟩ := wheel7_residue_facts (n % 210) h210 hr
  unfold backward7 forward7
  set j := lowerBoundIdx wheel7Table (n % 210) with hj
  have h1 : j + 48 * (n / 210) + 1 - 1 = j + 48 * (n / 210) := by omega
  have h2 : (j + 48 * (n / 210)) % 48 = j := by omega
  have h3 : (j + 48 * (n / 210)) / 48 = n / 210 := by omega
  rw [h1, h2, h3, hval]
  omega

/-! ## Closed-form versus table-based backward5 -/

theorem backward5_add_30 (n : Nat) : backward5 (n + 30) = backward5 n + 8 := by
  rw [backward5_eq, backward5_eq]; omega

theorem backward5_add_mul_30 (r : Nat) : ∀ q, backward5 (r + 30 * q) = backward5 r + 8 * q := by
  intro q
  induction q with
  | zero => simp
  | succ q ih =>
    have h : r + 30 * (q + 1) = (r + 30 * q) + 30 := by ring
    rw [h, backward5_add_30, ih]
    ring

theorem backward5Table_split (r q : Nat) (hr : r < 30) :
    backward5Table (r + 30 * q) = backward5Table r + 8 * q := by
  unfold backward5Table
  have h1 : (r + 30 * q) % 30 = r := by omega
  have h2 : (r + 30 * q) / 30 = q := by omega
  have h3 : r % 30 = r := by omega
  have h4 : r / 30 = 0 := by omega
  rw [h1, h2, h3, h4]
  omega

theorem wheel5_residue_closed :
    ∀ r < 30, Nat.gcd r 30 = 1 → backward5 r = backward5Table r := by decide

theorem backward5_eq_table {n : Nat} (h1 : 1 ≤ n) (hn : Nat.Coprime n 30) :
    backward5 n = backward5Table n := by
  have hr : Nat.Coprime (n % 30) 30 := (coprime_mod_right n 30 (by norm_num)).mp hn
  have h30 : n % 30 < 30 := Nat.mod_lt _ (by norm_num)
  have key := wheel5_residue_closed (n % 30) h30 hr
  have hsplit : n = n % 30 + 30 * (n / 30) := by omega
  calc backward5 n = backward5 (n % 30 + 30 * (n / 30)) := by rw [← hsplit]
    _ = backward5 (n % 30) + 8 * (n / 30) := backward5_add_mul_30 _ _
    _ = backward5Table (n % 30) + 8 * (n / 30) := by rw [key]
    _ = backward5Table (n % 30 + 30 * (n / 30)) := (backward5Table_split _ _ h30).symm
    _ = backward5Table n := by rw [← hsplit]

/-- Claim C9, counterexample: inside the claimed size_t-representable
range, the closed form as compiled for `uint64_t` disagrees with the
table form: at n = 2^62 + 3 (coprime to 30, below 2^64) the first step
`(n + 1) << 2` wraps modulo 2^64 to 16, so the compiled chain returns 1
while the table form returns 1229782938247303442. -/
theorem claim_C9_counter :
    Nat.Coprime (2 ^ 62 + 3) 30 ∧ 2 ^ 62 + 3 < 2 ^ 64 ∧
      ((2 ^ 62 + 3 + 1) <<< 2) % 2 ^ 64 = 16 ∧
      backward5U64 (2 ^ 62 + 3) = 1 ∧
      backward5Table (2 ^ 62 + 3) = 1229782938247303442 ∧
      backward5U64 (2 ^ 62 + 3) ≠ backward5Table (2 ^ 62 + 3) := by decide

theorem backward5U64_eq_backward5 {n : Nat} (h : n + 1 < 2 ^ 62) :
    backward5U64 n = backward5 n := by
  have e1 : (n + 1) % 2 ^ 64 = n + 1 := Nat.mod_eq_of_lt (by omega)
  have hsh : (n + 1) <<< 2 = (n + 1) * 4 := by
    rw [Nat.shiftLeft_eq]
  have e2 : (n + 1) <<< 2 % 2 ^ 64 = (n + 1) <<< 2 := by
    apply Nat.mod_eq_of_lt
    rw [hsh]
    omega
  have hdle : (n + 1) <<< 2 / 5 ≤ 2 ^ 62 := by
    rw [hsh]
    calc (n + 1) * 4 / 5 ≤ 2 ^ 64 / 5 := Nat.div_le_div_right (by omega)
      _ ≤ 2 ^ 62 := by norm_num
  have e3 : ((n + 1) <<< 2 / 5 + 1) % 2 ^ 64 = (n + 1) <<< 2 / 5 + 1 :=
    Nat.mod_eq_of_lt (by omega)
  have hsh2 : ((n + 1) <<< 2 / 5 + 1) <<< 1 = ((n + 1) <<< 2 / 5 + 1) * 2 := by
    rw [Nat.shiftLeft_eq]
  have e4 : ((n + 1) <<< 2 / 5 + 1) <<< 1 % 2 ^ 64 = ((n + 1) <<< 2 / 5 + 1) <<< 1 := by
    apply Nat.mod_eq_of_lt
    rw [hsh2]
    omega
  have hble : ((n + 1) <<< 2 / 5 + 1) <<< 1 / 3 ≤ 2 ^ 62 := by
    rw [hsh2]
    calc ((n + 1) <<< 2 / 5 + 1) * 2 / 3 ≤ (2 ^ 62 + 1) * 2 / 3 :=
        Nat.div_le_div_right (by omega)
      _ ≤ 2 ^ 62 := by norm_num
  have e5 : (((n + 1) <<< 2 / 5 + 1) <<< 1 / 3 + 1) % 2 ^ 64
      = ((n + 1) <<< 2 / 5 + 1) <<< 1 / 3 + 1 := Nat.mod_eq_of_lt (by omega)
  simp only [backward5U64, backward5]
  rw [e1, e2, e3, e4, e5]

/-- Claim C9, amended: the equivalence of the compiled (uint64, wrapping)
closed-form `backward5` with the table-based `backward5` holds for every
n ≥ 1 coprime to 30 in the wrap-free range n + 1 < 2^62; beyond it the
first left shift of the closed form wraps modulo 2^64 and the two
implementations disagree (see the counterexample at n = 2^62 + 3). -/
theorem claim_C9 {n : Nat} (h1 : 1 ≤ n) (h2 : n + 1 < 2 ^ 62)
    (hn : Nat.Coprime n 30) : backward5U64 n = backward5Table n := by
  rw [backward5U64_eq_backward5 h2, backward5_eq_table h1 hn]

theorem claim_C9_witness :
    1 ≤ 49 ∧ 49 + 1 < 2 ^ 62 ∧ Nat.Coprime 49 30 ∧
      backward5U64 49 = backward5Table 49 :=
  ⟨by decide, by decide, by decide, claim_C9 (by decide) (by decide) (by decide)⟩

/-- Claim C4, counterexample: the table-based 5- and 7-wheel maps are not
mutual inverses; already at compacted index 1, `backward5(forward5(1))`
is 2 and `backward7(forward7(1))` is 2, and conversely
`forward5(backward5(7)) = 11 ≠ 7`, `forward7(backward7(11)) = 13 ≠ 11`
even though 7 is coprime to 30 and 11 is coprime to 210. -/
theorem claim_C4_counter :
    backward5Table (forward5 1) = 2 ∧ backward7 (forward7 1) = 2 ∧
      forward5 (backward5Table 7) = 11 ∧ Nat.Coprime 7 30 ∧
      forward7 (backward7 11) = 13 ∧ Nat.Coprime 11 210 := by decide

theorem coprime_30_forward5 (i : Nat) : Nat.Coprime (forward5 i) 30 := by
  have h8 : i % 8 < 8 := Nat.mod_lt _ (by norm_num)
  have hc : ∀ j < 8, wheel5Table.getD j 0 < 30 ∧ Nat.gcd (wheel5Table.getD j 0) 30 = 1 := by
    decide
  obtain ⟨hlt, hcop⟩ := hc (i % 8) h8
  unfold forward5
  rw [coprime_mod_right _ 30 (by norm_num)]
  have hmod : (wheel5Table.getD (i % 8) 0 + i / 8 * 30) % 30 = wheel5Table.getD (i % 8) 0 := by
    omega
  rw [hmod]
  exact hcop

/-- Claim C4, amended: the base-6 pair `forward`/`backward` and the base-2
pair `forward2`/`backward2` are mutual inverses exactly as claimed, but
the table-based 5- and 7-wheel maps are shifted by one: the backward maps
are the 1-based rank, so `backward5(forward5(i)) = i + 1` and
`backward7(forward7(i)) = i + 1` for every i, and the inversions hold
after subtracting 1: `forward5(backward5(n) - 1) = n` for n coprime to
30, `forward7(backward7(n) - 1) = n` for n coprime to 210.  The
closed-form `backward5` used by the sieve satisfies the same shifted
round trip. -/
theorem claim_C4 (i m j : Nat) (n₂ n₆ n₅ n₇ : Nat) (hi : 1 ≤ i)
    (h2 : n₂ % 2 = 1) (h6 : Nat.Coprime n₆ 6) (h5 : Nat.Coprime n₅ 30)
    (h7 : Nat.Coprime n₇ 210) :
    backward (forward i) = i ∧ backward2 (forward2 i) = i ∧
      forward (backward n₆) = n₆ ∧ forward2 (backward2 n₂) = n₂ ∧
      backward5Table (forward5 m) = m + 1 ∧ backward7 (forward7 j) = j + 1 ∧
      backward5 (forward5 m) = m + 1 ∧
      forward5 (backward5Table n₅ - 1) = n₅ ∧ forward7 (backward7 n₇ - 1) = n₇ := by
  refine ⟨backward_forward hi, backward2_forward2 hi, forward_backward h6,
    forward2_backward2 h2, backward5Table_forward5 m, backward7_forward7 j, ?_,
    forward5_backward5Table h5, forward7_backward7 h7⟩
  have h1 : 1 ≤ forward5 m := by
    have h8 : m % 8 < 8 := Nat.mod_lt _ (by norm_num)
    have hp : ∀ r < 8, 1 ≤ wheel5Table.getD r 0 := by decide
    have := hp (m % 8) h8
    unfold forward5
    omega
  rw [backward5_eq_table h1 (coprime_30_forward5 m)]
  exact backward5Table_forward5 m

theorem claim_C4_witness :
    1 ≤ 5 ∧ 9 % 2 = 1 ∧ Nat.Coprime 25 6 ∧ Nat.Coprime 7 30 ∧ Nat.Coprime 11 210 ∧
      (backward (forward 5) = 5 ∧ backward2 (forward2 5) = 5 ∧
        forward (backward 25) = 25 ∧ forward2 (backward2 9) = 9 ∧
        backward5Table (forward5 3) = 3 + 1 ∧ backward7 (forward7 4) = 4 + 1 ∧
        backward5 (forward5 3) = 3 + 1 ∧
        forward5 (backward5Table 7 - 1) = 7 ∧ forward7 (backward7 11 - 1) = 11) :=
  ⟨by decide, by decide, by decide, by decide, by decide,
    claim_C4 5 3 4 9 25 7 11 (by decide) (by decide) (by decide) (by decide) (by decide)⟩

/-! ## The wheel-increment trajectory: periodicity and characterization -/

theorem wIter_48 : wIter 48 = wheelInit := by decide

theorem wIter_periodic (k : Nat) : wIter (k + 48) = wIter k := by
  unfold wIter
  rw [Function.iterate_add_apply]
  have h : (fun w => (GetWheel5and7Increment w).2)^[48] wheelInit = wheelInit := wIter_48
  rw [h]

theorem wIter_add_mul_48 (r : Nat) : ∀ q, wIter (r + 48 * q) = wIter r := by
  intro q
  induction q with
  | zero => simp
  | succ q ih =>
    have h : r + 48 * (q + 1) = (r + 48 * q) + 48 := by ring
    rw [h, wIter_periodic, ih]

theorem wIter_mod (k : Nat) : wIter k = wIter (k % 48) := by
  conv_lhs => rw [← Nat.mod_add_div k 48]
  exact wIter_add_mul_48 _ _

theorem incSeq_periodic (k : Nat) : incSeq (k + 48) = incSeq k := by
  unfold incSeq
  rw [wIter_periodic]

theorem incSeq_mod (k : Nat) : incSeq k = incSeq (k % 48) := by
  unfold incSeq
  rw [wIter_mod]

theorem incSeq_pos (k : Nat) : 1 ≤ incSeq k := by
  rw [incSeq_mod]
  exact (by decide : ∀ r < 48, 1 ≤ incSeq r) _ (Nat.mod_lt _ (by norm_num))

theorem oSeq_one_le (k : Nat) : 1 ≤ oSeq k := by
  induction k with
  | zero => exact le_refl 1
  | succ k ih =>
    have := incSeq_pos k
    unfold oSeq
    omega

theorem oSeq_lt_succ (k : Nat) : oSeq k < oSeq (k + 1) := by
  have := incSeq_pos k
  show oSeq k < oSeq k + incSeq k
  omega

theorem oSeq_strictMono : StrictMono oSeq :=
  strictMono_nat_of_lt_succ oSeq_lt_succ

theorem oSeq_48 : oSeq 48 = 71 := by decide

theorem oSeq_add_48 (k : Nat) : oSeq (k + 48) = oSeq k + 70 := by
  induction k with
  | zero => exact oSeq_48
  | succ k ih =>
    have h : k + 1 + 48 = (k + 48) + 1 := by ring
    rw [h]
    show oSeq (k + 48) + incSeq (k + 48) = oSeq (k + 1) + 70
    rw [ih, incSeq_periodic]
    show oSeq k + 70 + incSeq k = oSeq k + incSeq k + 70
    ring

theorem oSeq_add_mul_48 (r : Nat) : ∀ q, oSeq (r + 48 * q) = oSeq r + 70 * q := by
  intro q
  induction q with
  | zero => simp
  | succ q ih =>
    have h : r + 48 * (q + 1) = (r + 48 * q) + 48 := by ring
    rw [h, oSeq_add_48, ih]
    ring

theorem oSeq_coprime_base : ∀ r < 48, Nat.gcd (forward (oSeq r)) 35 = 1 := by decide

theorem oSeq_window : ∀ s < 70, Nat.gcd (forward (s + 1)) 35 = 1 →
    ∃ j < 49, oSeq j = s + 1 := by decide

/-- Characterization of the candidate trajectory: starting from o = 1 and
stepping by the wheel increments visits exactly the compacted indices
whose forward image is coprime to 35 (no multiple of 5 or of 7). -/
theorem visits_iff (o : Nat) (ho : 1 ≤ o) :
    (∃ k, oSeq k = o) ↔ Nat.Coprime (forward o) 35 := by
  constructor
  · rintro ⟨k, rfl⟩
    have hk : oSeq k = oSeq (k % 48) + 70 * (k / 48) := by
      conv_lhs => rw [← Nat.mod_add_div k 48]
      exact oSeq_add_mul_48 _ _
    rw [hk, forward_add_mul_70 _ _ (oSeq_one_le _), coprime_35_add_210]
    exact oSeq_coprime_base (k % 48) (Nat.mod_lt _ (by norm_num))
  · intro hcop
    have hs : (o - 1) % 70 < 70 := Nat.mod_lt _ (by norm_num)
    have hsplit : o = ((o - 1) % 70 + 1) + 70 * ((o - 1) / 70) := by omega
    have hcop' : Nat.gcd (forward ((o - 1) % 70 + 1)) 35 = 1 := by
      have h := hcop
      rw [hsplit, forward_add_mul_70 _ _ (by omega), coprime_35_add_210] at h
      exact h
    obtain ⟨j, hj, hoj⟩ := oSeq_window ((o - 1) % 70) hs hcop'
    refine ⟨j + 48 * ((o - 1) / 70), ?_⟩
    rw [oSeq_add_mul_48, hoj]
    omega

theorem forward_le_forward {a b : Nat} (ha : 1 ≤ a) (hab : a ≤ b) :
    forward a ≤ forward b := by
  rw [forward_eq, forward_eq]; omega

/-- Consecutiveness of the candidate trajectory: between the forward
images of two successive visited indices there is no number coprime
to 210. -/
theorem no_candidate_between (k v : Nat) (h1 : forward (oSeq k) < v)
    (h2 : v < forward (oSeq (k + 1))) : ¬ Nat.Coprime v 210 := by
  intro hv
  obtain ⟨h6, h35⟩ := (coprime_210_iff' v).mp hv
  have hb1 : 1 ≤ backward v := one_le_backward v
  have hfb : forward (backward v) = v := forward_backward h6
  have h35' : Nat.Coprime (forward (backward v)) 35 := by rw [hfb]; exact h35
  obtain ⟨j, hj⟩ := (visits_iff (backward v) hb1).mpr h35'
  have l1 : oSeq k < backward v := by
    by_contra hcon
    push_neg at hcon
    have := forward_le_forward hb1 hcon
    omega
  have l2 : backward v < oSeq (k + 1) := by
    by_contra hcon
    push_neg at hcon
    have := forward_le_forward (oSeq_one_le (k + 1)) hcon
    omega
  have j1 : k < j := oSeq_strictMono.lt_iff_lt.mp (by rw [hj]; exact l1)
  have j2 : j < k + 1 := oSeq_strictMono.lt_iff_lt.mp (by rw [hj]; exact l2)
  omega

/-! ## Claims C8 and C10: the wheel increment generator -/

theorem coprime_seven (n : Nat) : Nat.Coprime n 7 ↔ n % 7 ≠ 0 := by
  rw [coprime_mod_right n 7 (by norm_num)]
  have h : n % 7 < 7 := Nat.mod_lt _ (by norm_num)
  revert h
  generalize n % 7 = r
  intro h
  interval_cases r <;> simp [Nat.Coprime]

theorem incSeq_add_mul (r q : Nat) : incSeq (r + 48 * q) = incSeq r := by
  unfold incSeq
  rw [wIter_add_mul_48]

/-- Claim C8, counterexample: the increment sequence produced from the
documented initial registers is not eventually periodic with period 35;
the increments at positions 48j and 48j + 35 differ for every j, since
`incSeq 0 = 3` but `incSeq 35 = 2` and the sequence has period 48. -/
theorem claim_C8_counter :
    ¬ ∃ N, ∀ k, N ≤ k → incSeq (k + 35) = incSeq k := by
  rintro ⟨N, hN⟩
  have h := hN (48 * N) (by omega)
  have h1 : incSeq (48 * N + 35) = incSeq 35 := by
    have e : 48 * N + 35 = 35 + 48 * N := by ring
    rw [e, incSeq_add_mul]
  have h2 : incSeq (48 * N) = incSeq 0 := by
    have e : 48 * N = 0 + 48 * N := by ring
    rw [e, incSeq_add_mul]
  rw [h1, h2] at h
  exact absurd h (by decide)

/-- Claim C8, amended: the increment sequence from the documented initial
registers `wheel5 = 129`, `wheel7 = 9009416540524545` is a deterministic
function of the call position, purely periodic with period 48 = φ(210)
(not 35), restarting reproduces it exactly (the registers return to the
initial pair after 48 calls), and stepping o = 1 by the returned
increments visits exactly the compacted indices whose forward image is
not a multiple of 5 or of 7. -/
theorem claim_C8 :
    (∀ k, incSeq (k + 48) = incSeq k) ∧ wIter 48 = wheelInit ∧
      (∀ k, wIter (k + 48) = wIter k) ∧
      (∀ o, 1 ≤ o → ((∃ k, oSeq k = o) ↔ (¬ 5 ∣ forward o ∧ ¬ 7 ∣ forward o))) := by
  refine ⟨incSeq_periodic, wIter_48, wIter_periodic, fun o ho => ?_⟩
  rw [visits_iff o ho, coprime_35_iff, coprime_five, coprime_seven]
  have d5 : (5 : Nat) ∣ forward o ↔ forward o % 5 = 0 := Nat.dvd_iff_mod_eq_zero
  have d7 : (7 : Nat) ∣ forward o ↔ forward o % 7 = 0 := Nat.dvd_iff_mod_eq_zero
  rw [d5, d7]

/-- Claim C10: from the documented initial registers, and from every
register state reachable from them by repeated calls (that is, every
`wIter k`), the do/while loop of `GetWheel5and7Increment` terminates
(well within the modelled fuel of 35 inner iterations), the returned
increment is at least 1, and hence the candidate index o strictly
increases on every loop iteration of the sieve. -/
theorem claim_C10 :
    ∀ k, (wheelIncAux 35 (wIter k) 0).isSome = true ∧ 1 ≤ incSeq k ∧
      oSeq k < oSeq (k + 1) := by
  intro k
  refine ⟨?_, incSeq_pos k, oSeq_lt_succ k⟩
  rw [wIter_mod]
  exact (by decide : ∀ r < 48, (wheelIncAux 35 (wIter r) 0).isSome = true) _
    (Nat.mod_lt _ (by norm_num))

/-! ## Characterization of the marking job -/

theorem testBit_one_shiftLeft (m j : Nat) : ((1 <<< m).testBit j = true) ↔ j = m := by
  rw [Nat.one_shiftLeft, Nat.testBit_two_pow]
  simp [eq_comm]

theorem testBit_set (np m j : Nat) :
    ((np ||| (1 <<< m)).testBit j = true) ↔ (np.testBit j = true ∨ j = m) := by
  rw [Nat.testBit_or, Bool.or_eq_true, testBit_one_shiftLeft]

theorem setBit5_testBit (np i j : Nat) :
    ((setBit5 np i).testBit j = true) ↔
      (np.testBit j = true ∨ (i % 5 ≠ 0 ∧ j = backward5 i)) := by
  unfold setBit5
  split_ifs with h
  · rw [testBit_set]; tauto
  · tauto

theorem markLoop_spec (n p : Nat) (hp : 1 ≤ p) :
    ∀ fuel k0 np, k0 % 6 = 1 → n + 1 ≤ fuel + p * k0 → p * k0 ≤ n →
      ∀ j, ((markLoop n p fuel (p * k0) np).testBit j = true ↔
        (np.testBit j = true ∨ ∃ k, k0 ≤ k ∧ (k % 6 = 1 ∨ k % 6 = 5) ∧
          p * k ≤ n ∧ (p * k) % 5 ≠ 0 ∧ j = backward5 (p * k))) := by
  intro fuel
  induction fuel with
  | zero =>
    intro k0 np h6 hfuel hle j
    omega
  | succ fuel ih =>
    intro k0 np h6 hfuel hle j
    have e4 : p * k0 + (p <<< 2) = p * (k0 + 4) := by rw [Nat.shiftLeft_eq]; ring
    have e6 : p * (k0 + 4) + (p <<< 1) = p * (k0 + 6) := by rw [Nat.shiftLeft_eq]; ring
    rw [markLoop, e4, e6]
    split_ifs with h1 h2
    · rw [setBit5_testBit]
      constructor
      · rintro (hb | ⟨h5, rfl⟩)
        · exact Or.inl hb
        · exact Or.inr ⟨k0, le_refl _, Or.inl h6, hle, h5, rfl⟩
      · rintro (hb | ⟨k, hk0, hk6, hkn, hk5, rfl⟩)
        · exact Or.inl hb
        · have hkk : k = k0 := by
            by_contra hne
            have hge : k0 + 4 ≤ k := by omega
            have := Nat.mul_le_mul_left p hge
            omega
          subst hkk
          exact Or.inr ⟨hk5, rfl⟩
    · rw [setBit5_testBit, setBit5_testBit]
      have h56 : (k0 + 4) % 6 = 5 := by omega
      constructor
      · rintro ((hb | ⟨h5, rfl⟩) | ⟨h5, rfl⟩)
        · exact Or.inl hb
        · exact Or.inr ⟨k0, le_refl _, Or.inl h6, hle, h5, rfl⟩
        · exact Or.inr ⟨k0 + 4, by omega, Or.inr h56, by omega, h5, rfl⟩
      · rintro (hb | ⟨k, hk0, hk6, hkn, hk5, rfl⟩)
        · exact Or.inl (Or.inl hb)
        · have htri : k = k0 ∨ k = k0 + 4 ∨ k0 + 6 ≤ k := by omega
          rcases htri with rfl | rfl | hge
          · exact Or.inl (Or.inr ⟨hk5, rfl⟩)
          · exact Or.inr ⟨hk5, rfl⟩
          · exfalso
            have := Nat.mul_le_mul_left p hge
            omega
    · have hk0' : (k0 + 6) % 6 = 1 := by omega
      have hexp : p * (k0 + 6) = p * k0 + 6 * p := by ring
      have hfuel' : n + 1 ≤ fuel + p * (k0 + 6) := by omega
      have hle' : p * (k0 + 6) ≤ n := by omega
      rw [ih (k0 + 6) _ hk0' hfuel' hle' j, setBit5_testBit, setBit5_testBit]
      have h56 : (k0 + 4) % 6 = 5 := by omega
      constructor
      · rintro (((hb | ⟨h5, rfl⟩) | ⟨h5, rfl⟩) | ⟨k, hk0, hk6, hkn, hk5, rfl⟩)
        · exact Or.inl hb
        · exact Or.inr ⟨k0, le_refl _, Or.inl h6, hle, h5, rfl⟩
        · exact Or.inr ⟨k0 + 4, by omega, Or.inr h56, by omega, h5, rfl⟩
        · exact Or.inr ⟨k, by omega, hk6, hkn, hk5, rfl⟩
      · rintro (hb | ⟨k, hk0, hk6, hkn, hk5, rfl⟩)
        · exact Or.inl (Or.inl (Or.inl hb))
        · have htri : k = k0 ∨ k = k0 + 4 ∨ k0 + 6 ≤ k := by omega
          rcases htri with rfl | rfl | hge
          · exact Or.inl (Or.inl (Or.inr ⟨hk5, rfl⟩))
          · exact Or.inl (Or.inr ⟨hk5, rfl⟩)
          · exact Or.inr ⟨k, hge, hk6, hkn, hk5, rfl⟩

theorem markFor_spec (n p np : Nat) (hcop6 : Nat.Coprime p 6) (hcop5 : Nat.Coprime p 5)
    (hpn : p * p ≤ n) :
    ∀ j, ((markFor n p np).testBit j = true ↔
      (np.testBit j = true ∨ ∃ k, Nat.Coprime k 6 ∧ p ≤ k ∧ p * k ≤ n ∧
        (p * k) % 5 ≠ 0 ∧ j = backward5 (p * k))) := by
  intro j
  have h6 := (coprime_six p).mp hcop6
  have hp1 : 1 ≤ p := by omega
  have hsq5 : (p * p) % 5 ≠ 0 := (coprime_five _).mp (Nat.Coprime.mul hcop5 hcop5)
  have hpp1 : 1 ≤ p * p := Nat.mul_le_mul hp1 hp1
  unfold markFor
  rcases h6 with h1 | h5
  · have h3 : ¬(p % 3 = 2) := by omega
    rw [if_neg h3]
    have hml := markLoop_spec n p hp1 n p np (by omega) (by omega) hpn j
    rw [hml]
    refine or_congr Iff.rfl (exists_congr fun k => ?_)
    rw [coprime_six]
    tauto
  · have h3 : p % 3 = 2 := by omega
    rw [if_pos h3]
    have e2 : p * p + (p <<< 1) = p * (p + 2) := by rw [Nat.shiftLeft_eq]; ring
    rw [e2]
    split_ifs with hbound
    · rw [testBit_set]
      constructor
      · rintro (hb | rfl)
        · exact Or.inl hb
        · exact Or.inr ⟨p, hcop6, le_refl _, hpn, hsq5, rfl⟩
      · rintro (hb | ⟨k, hk6, hkp, hkn, hk5, rfl⟩)
        · exact Or.inl hb
        · have h6k := (coprime_six k).mp hk6
          have hkk : k = p := by
            by_contra hne
            have hge : p + 2 ≤ k := by omega
            have := Nat.mul_le_mul_left p hge
            omega
          subst hkk
          exact Or.inr rfl
    · have hk0 : (p + 2) % 6 = 1 := by omega
      have hp2p : 0 < p * (p + 2) := Nat.mul_pos (by omega) (by omega)
      have hml := markLoop_spec n p hp1 n (p + 2) (np ||| (1 <<< backward5 (p * p)))
        hk0 (by omega) (by omega) j
      rw [hml, testBit_set]
      constructor
      · rintro ((hb | rfl) | ⟨k, hk, hk6, hkn, hk5, rfl⟩)
        · exact Or.inl hb
        · exact Or.inr ⟨p, hcop6, le_refl _, hpn, hsq5, rfl⟩
        · exact Or.inr ⟨k, (coprime_six k).mpr hk6, by omega, hkn, hk5, rfl⟩
      · rintro (hb | ⟨k, hk6, hkp, hkn, hk5, rfl⟩)
        · exact Or.inl (Or.inl hb)
        · have h6k := (coprime_six k).mp hk6
          have htri : k = p ∨ p + 2 ≤ k := by omega
          rcases htri with rfl | hge
          · exact Or.inl (Or.inr rfl)
          · exact Or.inr ⟨k, hge, h6k, hkn, hk5, rfl⟩

/-! ## Reference trial-division primality and prime intervals -/

theorem isPrimeRef_iff (p : Nat) : isPrimeRef p = true ↔ p.Prime := by
  rw [Nat.prime_def_le_sqrt, isPrimeRef, Bool.and_eq_true, List.all_eq_true, decide_eq_true_iff]
  constructor
  · rintro ⟨h2, hall⟩
    refine ⟨h2, fun m hm2 hms => ?_⟩
    intro hdvd
    have hmm : m * m ≤ p := Nat.le_sqrt.mp hms
    have hm2m : m * 2 ≤ m * m := Nat.mul_le_mul_left _ hm2
    have hmem : m ∈ List.range p := by
      rw [List.mem_range]
      omega
    have hx := hall m hmem
    rw [Bool.not_eq_true', Bool.and_eq_false_iff, Bool.and_eq_false_iff] at hx
    rcases hx with (hx | hx) | hx <;> rw [decide_eq_false_iff_not] at hx
    · exact hx hm2
    · exact hx hmm
    · exact hx hdvd
  · rintro ⟨h2, hall⟩
    refine ⟨h2, fun d hmem => ?_⟩
    rw [Bool.not_eq_true', Bool.and_eq_false_iff, Bool.and_eq_false_iff]
    by_cases hd2 : 2 ≤ d
    · by_cases hdd : d * d ≤ p
      · exact Or.inr (by rw [decide_eq_false_iff_not]; exact hall d hd2 (Nat.le_sqrt.mpr hdd))
      · exact Or.inl (Or.inr (by rw [decide_eq_false_iff_not]; exact hdd))
    · exact Or.inl (Or.inl (by rw [decide_eq_false_iff_not]; exact hd2))

theorem natsIco_nil {a b : Nat} (h : b ≤ a) : natsIco a b = [] := by
  unfold natsIco
  rw [Nat.sub_eq_zero_of_le h]
  rfl

theorem mem_natsIco {a b m : Nat} : m ∈ natsIco a b ↔ a ≤ m ∧ m < b := by
  unfold natsIco
  rw [List.mem_range'_1]
  omega

theorem natsIco_append {a b c : Nat} (h1 : a ≤ b) (h2 : b ≤ c) :
    natsIco a c = natsIco a b ++ natsIco b c := by
  unfold natsIco
  have h4 : c - a = (c - b) + (b - a) := by omega
  have h3 : a + 1 * (b - a) = b := by omega
  rw [h4, ← List.range'_append, h3]

theorem natsIco_cons {a b : Nat} (h : a < b) : natsIco a b = a :: natsIco (a + 1) b := by
  unfold natsIco
  have h1 : b - a = (b - (a + 1)) + 1 := by omega
  rw [h1, List.range'_succ]

/-! ## Number-theoretic helpers about the wheel and prime factors -/

theorem prime_coprime210 {q : Nat} (hq : q.Prime) (h11 : 11 ≤ q) : Nat.Coprime q 210 := by
  have h : ∀ m : Nat, 0 < m → m < 11 → Nat.Coprime q m := by
    intro m hm0 hm
    rw [Nat.Prime.coprime_iff_not_dvd hq]
    intro hdvd
    have := Nat.le_of_dvd hm0 hdvd
    omega
  rw [coprime_210_iff, coprime_30_iff]
  exact ⟨⟨h 6 (by norm_num) (by norm_num), h 5 (by norm_num) (by norm_num)⟩,
    h 7 (by norm_num) (by norm_num)⟩

theorem minFac_ge_11 {v : Nat} (hv : Nat.Coprime v 210) (h2 : 2 ≤ v) : 11 ≤ v.minFac := by
  by_contra hcon
  push_neg at hcon
  have hqp : (v.minFac).Prime := Nat.minFac_prime (by omega)
  have hcq : Nat.Coprime (v.minFac) 210 := Nat.Coprime.coprime_dvd_left (Nat.minFac_dvd v) hv
  rw [Nat.Prime.coprime_iff_not_dvd hqp] at hcq
  have h2q : 2 ≤ v.minFac := hqp.two_le
  have hvals : v.minFac = 2 ∨ v.minFac = 3 ∨ v.minFac = 4 ∨ v.minFac = 5 ∨ v.minFac = 6 ∨
      v.minFac = 7 ∨ v.minFac = 8 ∨ v.minFac = 9 ∨ v.minFac = 10 := by omega
  rcases hvals with h | h | h | h | h | h | h | h | h <;> rw [h] at hqp hcq
  · exact hcq (by norm_num)
  · exact hcq (by norm_num)
  · exact absurd hqp (by norm_num)
  · exact hcq (by norm_num)
  · exact absurd hqp (by norm_num)
  · exact hcq (by norm_num)
  · exact absurd hqp (by norm_num)
  · exact absurd hqp (by norm_num)
  · exact absurd hqp (by norm_num)

theorem markedBy_not_prime {n cutoff v : Nat} (h : MarkedBy n cutoff v) : ¬ v.Prime := by
  obtain ⟨_, _, _, q, hqp, _, h11, _, hdvd, hsq⟩ := h
  intro hvp
  have hq2 : 2 ≤ q := hqp.two_le
  have hqq : q * 2 ≤ q * q := Nat.mul_le_mul_left q hq2
  rcases hvp.eq_one_or_self_of_dvd q hdvd with h1 | h1 <;> omega

theorem markedBy_of_composite {n cutoff v : Nat} (h210 : Nat.Coprime v 210) (h2 : 2 ≤ v)
    (hnp : ¬ v.Prime) (hvn : v ≤ n) (hcut : n < cutoff * cutoff) : MarkedBy n cutoff v := by
  obtain ⟨h30, h7⟩ := (coprime_210_iff v).mp h210
  obtain ⟨h6, h5⟩ := (coprime_30_iff v).mp h30
  have hq11 : 11 ≤ v.minFac := minFac_ge_11 h210 h2
  have hqp : (v.minFac).Prime := Nat.minFac_prime (by omega)
  have hsq : v.minFac * v.minFac ≤ v := by
    have := Nat.minFac_sq_le_self (by omega : 0 < v) hnp
    rwa [Nat.pow_two] at this
  have hqcut : v.minFac < cutoff := by
    by_contra hcon
    push_neg at hcon
    have := Nat.mul_le_mul hcon hcon
    omega
  exact ⟨hvn, (coprime_five v).mp h5, h6, v.minFac, hqp, prime_coprime210 hqp hq11,
    hq11, hqcut, Nat.minFac_dvd v, hsq⟩

/-! ## Strict monotonicity of backward5 on the 30-wheel -/

theorem lowerBoundIdx_wheel5_le : ∀ r < 30, Nat.gcd r 30 = 1 →
    lowerBoundIdx wheel5Table r ≤ 7 := by decide

theorem lowerBoundIdx_wheel5_lt : ∀ r < 30, ∀ s < 30, Nat.gcd r 30 = 1 →
    Nat.gcd s 30 = 1 → r < s → lowerBoundIdx wheel5Table r < lowerBoundIdx wheel5Table s := by
  decide

theorem coprime_pos {a b : Nat} (hb : 2 ≤ b) (h : Nat.Coprime a b) : 1 ≤ a := by
  rcases Nat.eq_zero_or_pos a with rfl | h1
  · unfold Nat.Coprime at h
    rw [Nat.gcd_zero_left] at h
    omega
  · exact h1

theorem backward5_strict {a b : Nat} (ha : Nat.Coprime a 30) (hb : Nat.Coprime b 30)
    (hab : a < b) : backward5 a < backward5 b := by
  have ha1 : 1 ≤ a := coprime_pos (by norm_num) ha
  have hb1 : 1 ≤ b := coprime_pos (by norm_num) hb
  rw [backward5_eq_table ha1 ha, backward5_eq_table hb1 hb]
  unfold backward5Table
  have hra : Nat.Coprime (a % 30) 30 := (coprime_mod_right a 30 (by norm_num)).mp ha
  have hrb : Nat.Coprime (b % 30) 30 := (coprime_mod_right b 30 (by norm_num)).mp hb
  have hma : a % 30 < 30 := Nat.mod_lt _ (by norm_num)
  have hmb : b % 30 < 30 := Nat.mod_lt _ (by norm_num)
  have hba : lowerBoundIdx wheel5Table (a % 30) ≤ 7 := lowerBoundIdx_wheel5_le _ hma hra
  have hbb : lowerBoundIdx wheel5Table (b % 30) ≤ 7 := lowerBoundIdx_wheel5_le _ hmb hrb
  have hcases : a / 30 < b / 30 ∨ (a / 30 = b / 30 ∧ a % 30 < b % 30) := by omega
  rcases hcases with hlt | ⟨heq, hltr⟩
  · omega
  · have := lowerBoundIdx_wheel5_lt _ hma _ hmb hra hrb hltr
    omega

theorem backward5_inj {a b : Nat} (ha : Nat.Coprime a 30) (hb : Nat.Coprime b 30)
    (h : backward5 a = backward5 b) : a = b := by
  rcases Nat.lt_trichotomy a b with hlt | heq | hgt
  · have := backward5_strict ha hb hlt; omega
  · exact heq
  · have := backward5_strict hb ha hgt; omega

/-! ## Candidate trajectory facts feeding the loop invariants -/

theorem coprime210_forward_oSeq (k : Nat) : Nat.Coprime (forward (oSeq k)) 210 := by
  rw [coprime_210_iff']
  exact ⟨coprime_six_forward _ (oSeq_one_le k),
    (visits_iff (oSeq k) (oSeq_one_le k)).mp ⟨k, rfl⟩⟩

theorem oSeq_one : oSeq 1 = 4 := by decide

theorem eleven_le_forward_oSeq (k : Nat) (hk : 1 ≤ k) : 11 ≤ forward (oSeq k) := by
  have h4 : 4 ≤ oSeq k := by
    have h := oSeq_strictMono.monotone hk
    rw [oSeq_one] at h
    exact h
  have h11 : forward 4 ≤ forward (oSeq k) := forward_le_forward (by norm_num) h4
  have : forward 4 = 11 := by decide
  omega

theorem candidate_le_of_lt_next {q : Nat} (k : Nat) (hq210 : Nat.Coprime q 210)
    (h11 : 11 ≤ q) (hlt : q < forward (oSeq (k + 1))) : q ≤ forward (oSeq k) := by
  by_contra h
  push_neg at h
  exact absurd hq210 (no_candidate_between k q h hlt)

theorem forward_oSeq_lt_succ (k : Nat) : forward (oSeq k) < forward (oSeq (k + 1)) :=
  forward_lt_forward (oSeq_one_le k) (oSeq_lt_succ k)

theorem filter_gap_nil {k a b : Nat} (ha : forward (oSeq k) < a)
    (hb : b ≤ forward (oSeq (k + 1))) :
    (natsIco a b).filter (fun v => isPrimeRef v && decide (11 ≤ v)) = [] := by
  rw [List.filter_eq_nil_iff]
  intro v hv
  rw [mem_natsIco] at hv
  intro hpred
  rw [Bool.and_eq_true, decide_eq_true_iff, isPrimeRef_iff] at hpred
  obtain ⟨hp, h11⟩ := hpred
  exact no_candidate_between k v (by omega) (by omega) (prime_coprime210 hp h11)

/-! ## Moving the marking cutoff along the trajectory -/

theorem markedBy_cutoff_step (n k m : Nat) :
    MarkedBy n (forward (oSeq (k + 1))) m ↔ MarkedBy n (forward (oSeq k) + 1) m := by
  unfold MarkedBy
  refine and_congr_right fun _ => and_congr_right fun _ => and_congr_right fun _ =>
    exists_congr fun q => ?_
  constructor
  · rintro ⟨hqp, hq210, h11, hcut, hdvd, hsq⟩
    have := candidate_le_of_lt_next k hq210 h11 hcut
    exact ⟨hqp, hq210, h11, by omega, hdvd, hsq⟩
  · rintro ⟨hqp, hq210, h11, hcut, hdvd, hsq⟩
    have := forward_oSeq_lt_succ k
    exact ⟨hqp, hq210, h11, by omega, hdvd, hsq⟩

theorem markedBy_skip_iff (n k m : Nat) (hnp : ¬ (forward (oSeq (k + 1))).Prime) :
    MarkedBy n (forward (oSeq (k + 1)) + 1) m ↔ MarkedBy n (forward (oSeq k) + 1) m := by
  unfold MarkedBy
  refine and_congr_right fun _ => and_congr_right fun _ => and_congr_right fun _ =>
    exists_congr fun q => ?_
  constructor
  · rintro ⟨hqp, hq210, h11, hcut, hdvd, hsq⟩
    have hqne : q ≠ forward (oSeq (k + 1)) := by
      rintro rfl
      exact hnp hqp
    have := candidate_le_of_lt_next k hq210 h11 (by omega)
    exact ⟨hqp, hq210, h11, by omega, hdvd, hsq⟩
  · rintro ⟨hqp, hq210, h11, hcut, hdvd, hsq⟩
    have := forward_oSeq_lt_succ k
    exact ⟨hqp, hq210, h11, by omega, hdvd, hsq⟩

theorem markedBy_extend_iff (n k m : Nat) (hp : (forward (oSeq (k + 1))).Prime)
    (hpn : forward (oSeq (k + 1)) * forward (oSeq (k + 1)) ≤ n) :
    MarkedBy n (forward (oSeq (k + 1)) + 1) m ↔
      (MarkedBy n (forward (oSeq k) + 1) m ∨
        ∃ kk, Nat.Coprime kk 6 ∧ forward (oSeq (k + 1)) ≤ kk ∧
          forward (oSeq (k + 1)) * kk ≤ n ∧ (forward (oSeq (k + 1)) * kk) % 5 ≠ 0 ∧
          m = forward (oSeq (k + 1)) * kk) := by
  set P := forward (oSeq (k + 1)) with hP
  have hp210 : Nat.Coprime P 210 := coprime210_forward_oSeq (k + 1)
  obtain ⟨hp30, hp7⟩ := (coprime_210_iff _).mp hp210
  obtain ⟨hp6, hp5⟩ := (coprime_30_iff _).mp hp30
  have h11 : 11 ≤ P := eleven_le_forward_oSeq (k + 1) (by omega)
  constructor
  · rintro ⟨hmn, hm5, hm6, q, hqp, hq210, hq11, hqcut, hqdvd, hqsq⟩
    rcases Nat.lt_or_ge q P with hlt | hge
    · have := candidate_le_of_lt_next k hq210 hq11 (hP ▸ hlt)
      exact Or.inl ⟨hmn, hm5, hm6, q, hqp, hq210, hq11, by omega, hqdvd, hqsq⟩
    · have hqe : q = P := by omega
      subst hqe
      refine Or.inr ⟨m / P, ?_, ?_, ?_, ?_, ?_⟩
      · have hdd : m / P ∣ m := ⟨P, by rw [Nat.mul_comm]; exact (Nat.mul_div_cancel' hqdvd).symm⟩
        exact Nat.Coprime.coprime_dvd_left hdd hm6
      · rw [Nat.le_div_iff_mul_le (by omega : 0 < P)]
        exact hqsq
      · rw [Nat.mul_div_cancel' hqdvd]
        exact hmn
      · rw [Nat.mul_div_cancel' hqdvd]
        exact hm5
      · exact (Nat.mul_div_cancel' hqdvd).symm
  · rintro (⟨hmn, hm5, hm6, q, hqp, hq210, hq11, hqcut, hqdvd, hqsq⟩ |
      ⟨kk, hkk6, hpkk, hkkn, hkk5, rfl⟩)
    · have := forward_oSeq_lt_succ k
      rw [← hP] at this
      exact ⟨hmn, hm5, hm6, q, hqp, hq210, hq11, by omega, hqdvd, hqsq⟩
    · exact ⟨hkkn, hkk5, Nat.Coprime.mul hp6 hkk6, P, hp, hp210, h11,
        by omega, ⟨kk, rfl⟩, Nat.mul_le_mul_left _ hpkk⟩

/-! ## Reading the bit array at a candidate -/

theorem coprime30_of_marked {n c m : Nat} (h : MarkedBy n c m) : Nat.Coprime m 30 := by
  obtain ⟨_, h5, h6, _⟩ := h
  rw [coprime_30_iff, coprime_five]
  exact ⟨h6, h5⟩

theorem bit_read_loop1 (n np k : Nat)
    (hinv : ∀ j, np.testBit j = true ↔
      ∃ m, MarkedBy n (forward (oSeq k) + 1) m ∧ j = backward5 m)
    (hpn : forward (oSeq (k + 1)) * forward (oSeq (k + 1)) ≤ n) :
    (np.testBit (backward5 (forward (oSeq (k + 1)))) = true) ↔
      ¬ (forward (oSeq (k + 1))).Prime := by
  have hp210 : Nat.Coprime (forward (oSeq (k + 1))) 210 := coprime210_forward_oSeq (k + 1)
  obtain ⟨hp30, hp7⟩ := (coprime_210_iff _).mp hp210
  obtain ⟨hp6, hp5⟩ := (coprime_30_iff _).mp hp30
  have h11 : 11 ≤ forward (oSeq (k + 1)) := eleven_le_forward_oSeq (k + 1) (by omega)
  have hple : forward (oSeq (k + 1)) ≤ n := by
    have h1 : forward (oSeq (k + 1)) * 1 ≤ forward (oSeq (k + 1)) * forward (oSeq (k + 1)) :=
      Nat.mul_le_mul_left _ (by omega)
    omega
  rw [hinv]
  constructor
  · rintro ⟨m, hm, heq⟩
    have hme : m = forward (oSeq (k + 1)) :=
      backward5_inj (coprime30_of_marked hm) hp30 heq.symm
    subst hme
    exact markedBy_not_prime hm
  · intro hnp
    refine ⟨forward (oSeq (k + 1)), ⟨hple, (coprime_five _).mp hp5, hp6,
      (forward (oSeq (k + 1))).minFac, Nat.minFac_prime (by omega), ?_, ?_, ?_,
      Nat.minFac_dvd _, ?_⟩, rfl⟩
    · exact prime_coprime210 (Nat.minFac_prime (by omega)) (minFac_ge_11 hp210 (by omega))
    · exact minFac_ge_11 hp210 (by omega)
    · have hq11 := minFac_ge_11 hp210 (by omega : 2 ≤ forward (oSeq (k + 1)))
      have hsq : (forward (oSeq (k + 1))).minFac * (forward (oSeq (k + 1))).minFac ≤
          forward (oSeq (k + 1)) := by
        have := Nat.minFac_sq_le_self (by omega : 0 < forward (oSeq (k + 1))) hnp
        rwa [Nat.pow_two] at this
      have hq2 : 2 ≤ (forward (oSeq (k + 1))).minFac := by omega
      have hqq : (forward (oSeq (k + 1))).minFac * 2 ≤
          (forward (oSeq (k + 1))).minFac * (forward (oSeq (k + 1))).minFac :=
        Nat.mul_le_mul_left _ hq2
      have hqlt : (forward (oSeq (k + 1))).minFac < forward (oSeq (k + 1)) := by omega
      have := candidate_le_of_lt_next k
        (prime_coprime210 (Nat.minFac_prime (by omega)) hq11) hq11 hqlt
      omega
    · have := Nat.minFac_sq_le_self (by omega : 0 < forward (oSeq (k + 1))) hnp
      rwa [Nat.pow_two] at this

theorem bit_read_final (n np pstar p : Nat)
    (hinv : ∀ j, np.testBit j = true ↔ ∃ m, MarkedBy n pstar m ∧ j = backward5 m)
    (hcut : n < pstar * pstar) (hp210 : Nat.Coprime p 210) (h11 : 11 ≤ p) (hpn : p ≤ n) :
    (np.testBit (backward5 p) = true) ↔ ¬ p.Prime := by
  obtain ⟨hp30, hp7⟩ := (coprime_210_iff _).mp hp210
  rw [hinv]
  constructor
  · rintro ⟨m, hm, heq⟩
    have hme : m = p := backward5_inj (coprime30_of_marked hm) hp30 heq.symm
    subst hme
    exact markedBy_not_prime hm
  · intro hnp
    exact ⟨p, markedBy_of_composite hp210 (by omega) hnp hpn hcut, rfl⟩

theorem two_le_cutoff (k : Nat) : 2 ≤ forward (oSeq k) + 1 := by
  have h1 := oSeq_one_le k
  have h2 := forward_one_le h1
  omega

theorem filter_gap_nil_skip {k a b : Nat} (ha : forward (oSeq k) < a)
    (hb : b ≤ forward (oSeq (k + 1)) + 1) (hnp : ¬ (forward (oSeq (k + 1))).Prime) :
    (natsIco a b).filter (fun v => isPrimeRef v && decide (11 ≤ v)) = [] := by
  rw [List.filter_eq_nil_iff]
  intro v hv
  rw [mem_natsIco] at hv
  intro hpred
  rw [Bool.and_eq_true, decide_eq_true_iff, isPrimeRef_iff] at hpred
  obtain ⟨hp, h11⟩ := hpred
  rcases Nat.lt_or_ge v (forward (oSeq (k + 1))) with hlt | hge
  · exact no_candidate_between k v (by omega) hlt (prime_coprime210 hp h11)
  · have hve : v = forward (oSeq (k + 1)) := by omega
    rw [hve] at hp
    exact hnp hp

theorem sieveLoop1_spec (n : Nat) :
    ∀ fuel k tb np primes,
      n + 2 ≤ fuel + oSeq k →
      (∀ j, np.testBit j = true ↔
        ∃ m, MarkedBy n (forward (oSeq k) + 1) m ∧ j = backward5 m) →
      primes = [2, 3, 5, 7] ++ (natsIco 2 (forward (oSeq k) + 1)).filter
        (fun v => isPrimeRef v && decide (11 ≤ v)) →
      (∀ j, 1 ≤ j → j ≤ k → forward (oSeq j) * forward (oSeq j) ≤ n) →
      ∃ kf, k ≤ kf ∧ Loop1Post n kf (sieveLoop1 n fuel (oSeq k) (wIter k) tb np primes) := by
  intro fuel
  induction fuel with
  | zero =>
    intro k tb np primes hfuel hinv hprimes hsq
    exfalso
    rcases Nat.eq_zero_or_pos k with rfl | hk
    · have h1 : oSeq 0 = 1 := rfl
      omega
    · have hFge : oSeq k ≤ forward (oSeq k) := forward_one_le (oSeq_one_le k)
      have hF2 := hsq k hk (le_refl k)
      have h1 : n + 2 ≤ forward (oSeq k) := by omega
      have h2 : (n + 2) * (n + 2) ≤ forward (oSeq k) * forward (oSeq k) :=
        Nat.mul_le_mul h1 h1
      have h3 : (n + 2) * 1 ≤ (n + 2) * (n + 2) := Nat.mul_le_mul_left _ (by omega)
      omega
  | succ fuel ih =>
    intro k tb np primes hfuel hinv hprimes hsq
    have e1 : oSeq k + (GetWheel5and7Increment (wIter k)).1 = oSeq (k + 1) := rfl
    have e2 : (GetWheel5and7Increment (wIter k)).2 = wIter (k + 1) :=
      (Function.iterate_succ_apply' (fun w => (GetWheel5and7Increment w).2) k wheelInit).symm
    have hplt : forward (oSeq k) < forward (oSeq (k + 1)) := forward_oSeq_lt_succ k
    have h2c : 2 ≤ forward (oSeq k) + 1 := two_le_cutoff k
    have h11 : 11 ≤ forward (oSeq (k + 1)) := eleven_le_forward_oSeq (k + 1) (by omega)
    simp only [sieveLoop1]
    rw [e1, e2]
    generalize (if tb < forward (oSeq (k + 1)) then tb * tb else tb) = tb1
    split_ifs with hstop hbit
    · refine ⟨k, le_refl k, rfl, rfl, hstop, hsq, ?_, ?_⟩
      · intro j
        rw [hinv j]
        exact exists_congr fun m =>
          and_congr_left fun _ => (markedBy_cutoff_step n k m).symm
      · show primes = _
        rw [hprimes,
          natsIco_append h2c (by omega : forward (oSeq k) + 1 ≤ forward (oSeq (k + 1))),
          List.filter_append, filter_gap_nil (by omega) (le_refl _), List.append_nil]
    · -- candidate already marked: composite, skip
      have hpsq : forward (oSeq (k + 1)) * forward (oSeq (k + 1)) ≤ n := by omega
      have hnotp : ¬ (forward (oSeq (k + 1))).Prime :=
        (bit_read_loop1 n np k hinv hpsq).mp hbit
      have hfuel' : n + 2 ≤ fuel + oSeq (k + 1) := by
        have := oSeq_lt_succ k
        omega
      have hinv' : ∀ j, np.testBit j = true ↔
          ∃ m, MarkedBy n (forward (oSeq (k + 1)) + 1) m ∧ j = backward5 m := by
        intro j
        rw [hinv j]
        exact exists_congr fun m =>
          and_congr_left fun _ => (markedBy_skip_iff n k m hnotp).symm
      have hprimes' : primes = [2, 3, 5, 7] ++
          (natsIco 2 (forward (oSeq (k + 1)) + 1)).filter
            (fun v => isPrimeRef v && decide (11 ≤ v)) := by
        rw [hprimes,
          natsIco_append h2c (by omega : forward (oSeq k) + 1 ≤ forward (oSeq (k + 1)) + 1),
          List.filter_append, filter_gap_nil_skip (by omega) (le_refl _) hnotp,
          List.append_nil]
      have hsq' : ∀ j, 1 ≤ j → j ≤ k + 1 → forward (oSeq j) * forward (oSeq j) ≤ n := by
        intro j hj1 hj2
        rcases Nat.lt_or_ge j (k + 1) with hlt | hge
        · exact hsq j hj1 (by omega)
        · have : j = k + 1 := by omega
          rw [this]
          exact hpsq
      obtain ⟨kf, hkf, hpost⟩ := ih (k + 1) _ np primes hfuel' hinv' hprimes' hsq'
      exact ⟨kf, by omega, hpost⟩
    · -- fresh prime
      have hpsq : forward (oSeq (k + 1)) * forward (oSeq (k + 1)) ≤ n := by omega
      have hprime : (forward (oSeq (k + 1))).Prime := by
        by_contra hc
        exact hbit ((bit_read_loop1 n np k hinv hpsq).mpr hc)
      have hp210 : Nat.Coprime (forward (oSeq (k + 1))) 210 := coprime210_forward_oSeq (k + 1)
      obtain ⟨hp30, hp7⟩ := (coprime_210_iff _).mp hp210
      obtain ⟨hp6, hp5⟩ := (coprime_30_iff _).mp hp30
      have hfuel' : n + 2 ≤ fuel + oSeq (k + 1) := by
        have := oSeq_lt_succ k
        omega
      have hinv' : ∀ j, (markFor n (forward (oSeq (k + 1))) np).testBit j = true ↔
          ∃ m, MarkedBy n (forward (oSeq (k + 1)) + 1) m ∧ j = backward5 m := by
        intro j
        rw [markFor_spec n (forward (oSeq (k + 1))) np hp6 hp5 hpsq j, hinv j]
        constructor
        · rintro (⟨m, hm, rfl⟩ | ⟨kk, hc1, hc2, hc3, hc4, rfl⟩)
          · exact ⟨m, (markedBy_extend_iff n k m hprime hpsq).mpr (Or.inl hm), rfl⟩
          · exact ⟨forward (oSeq (k + 1)) * kk,
              (markedBy_extend_iff n k _ hprime hpsq).mpr
                (Or.inr ⟨kk, hc1, hc2, hc3, hc4, rfl⟩), rfl⟩
        · rintro ⟨m, hm, rfl⟩
          rcases (markedBy_extend_iff n k m hprime hpsq).mp hm with
            hold | ⟨kk, hc1, hc2, hc3, hc4, rfl⟩
          · exact Or.inl ⟨m, hold, rfl⟩
          · exact Or.inr ⟨kk, hc1, hc2, hc3, hc4, rfl⟩
      have hsingle : natsIco (forward (oSeq (k + 1))) (forward (oSeq (k + 1)) + 1) =
          [forward (oSeq (k + 1))] := by
        rw [natsIco_cons (by omega), natsIco_nil (le_refl _)]
      have hpredP : (isPrimeRef (forward (oSeq (k + 1))) &&
          decide (11 ≤ forward (oSeq (k + 1)))) = true := by
        rw [Bool.and_eq_true, decide_eq_true_iff]
        exact ⟨(isPrimeRef_iff _).mpr hprime, h11⟩
      have hprimes' : primes ++ [forward (oSeq (k + 1))] = [2, 3, 5, 7] ++
          (natsIco 2 (forward (oSeq (k + 1)) + 1)).filter
            (fun v => isPrimeRef v && decide (11 ≤ v)) := by
        rw [hprimes,
          natsIco_append h2c (by omega : forward (oSeq k) + 1 ≤ forward (oSeq (k + 1)) + 1),
          natsIco_append (by omega : forward (oSeq k) + 1 ≤ forward (oSeq (k + 1)))
            (by omega : forward (oSeq (k + 1)) ≤ forward (oSeq (k + 1)) + 1),
          List.filter_append, List.filter_append,
          filter_gap_nil (by omega) (le_refl _), hsingle]
        simp [hpredP]
      have hsq' : ∀ j, 1 ≤ j → j ≤ k + 1 → forward (oSeq j) * forward (oSeq j) ≤ n := by
        intro j hj1 hj2
        rcases Nat.lt_or_ge j (k + 1) with hlt | hge
        · exact hsq j hj1 (by omega)
        · have : j = k + 1 := by omega
          rw [this]
          exact hpsq
      obtain ⟨kf, hkf, hpost⟩ := ih (k + 1) _ (markFor n (forward (oSeq (k + 1))) np)
        (primes ++ [forward (oSeq (k + 1))]) hfuel' hinv' hprimes' hsq'
      exact ⟨kf, by omega, hpost⟩

/-! ## Characterization of the drain loop -/

theorem filter_gap_nil2 {k b : Nat} (np : Nat) (hb : b ≤ forward (oSeq (k + 1))) :
    (natsIco (forward (oSeq k) + 1) b).filter
      (fun v => decide (Nat.Coprime v 210) && !(np.testBit (backward5 v))) = [] := by
  rw [List.filter_eq_nil_iff]
  intro v hv
  rw [mem_natsIco] at hv
  intro hpred
  rw [Bool.and_eq_true, decide_eq_true_iff] at hpred
  exact no_candidate_between k v (by omega) (by omega) hpred.1

theorem sieveLoop2_spec (n : Nat) :
    ∀ fuel k np primes, n + 2 ≤ fuel + oSeq k →
      sieveLoop2 n fuel (oSeq k) (wIter k) np primes =
        primes ++ (natsIco (forward (oSeq k)) (n + 1)).filter
          (fun v => decide (Nat.Coprime v 210) && !(np.testBit (backward5 v))) := by
  intro fuel
  induction fuel with
  | zero =>
    intro k np primes hfuel
    have h1 := forward_one_le (oSeq_one_le k)
    show primes = _
    rw [natsIco_nil (by omega), List.filter_nil, List.append_nil]
  | succ fuel ih =>
    intro k np primes hfuel
    have e1 : oSeq k + (GetWheel5and7Increment (wIter k)).1 = oSeq (k + 1) := rfl
    have e2 : (GetWheel5and7Increment (wIter k)).2 = wIter (k + 1) :=
      (Function.iterate_succ_apply' (fun w => (GetWheel5and7Increment w).2) k wheelInit).symm
    have hplt : forward (oSeq k) < forward (oSeq (k + 1)) := forward_oSeq_lt_succ k
    have hfuel' : n + 2 ≤ fuel + oSeq (k + 1) := by
      have := oSeq_lt_succ k
      omega
    simp only [sieveLoop2]
    rw [e1, e2]
    split_ifs with hgt hbit
    · rw [natsIco_nil (by omega), List.filter_nil, List.append_nil]
    · rw [ih (k + 1) np primes hfuel']
      congr 1
      rw [natsIco_cons (by omega : forward (oSeq k) < n + 1), List.filter_cons]
      have hpredf : (decide (Nat.Coprime (forward (oSeq k)) 210) &&
          !(np.testBit (backward5 (forward (oSeq k))))) = false := by
        rw [hbit]
        simp
      rw [hpredf, if_neg (by simp : ¬ (false = true))]
      rcases le_or_lt (forward (oSeq (k + 1))) (n + 1) with hle | hlt
      · rw [natsIco_append (by omega : forward (oSeq k) + 1 ≤ forward (oSeq (k + 1))) hle,
          List.filter_append, filter_gap_nil2 np (le_refl _), List.nil_append]
      · rw [natsIco_nil (by omega : n + 1 ≤ forward (oSeq (k + 1))), List.filter_nil,
          filter_gap_nil2 np (by omega : n + 1 ≤ forward (oSeq (k + 1)))]
    · rw [ih (k + 1) np (primes ++ [forward (oSeq k)]) hfuel']
      rw [List.append_assoc]
      congr 1
      rw [natsIco_cons (by omega : forward (oSeq k) < n + 1), List.filter_cons]
      have hpredt : (decide (Nat.Coprime (forward (oSeq k)) 210) &&
          !(np.testBit (backward5 (forward (oSeq k))))) = true := by
        rw [Bool.and_eq_true, decide_eq_true_iff]
        refine ⟨coprime210_forward_oSeq k, ?_⟩
        rw [Bool.not_eq_true']
        exact Bool.of_not_eq_true hbit
      rw [hpredt, if_pos rfl, List.singleton_append]
      congr 1
      rcases le_or_lt (forward (oSeq (k + 1))) (n + 1) with hle | hlt
      · rw [natsIco_append (by omega : forward (oSeq k) + 1 ≤ forward (oSeq (k + 1))) hle,
          List.filter_append, filter_gap_nil2 np (le_refl _), List.nil_append]
      · rw [natsIco_nil (by omega : n + 1 ≤ forward (oSeq (k + 1))), List.filter_nil,
          filter_gap_nil2 np (by omega : n + 1 ≤ forward (oSeq (k + 1)))]

/-! ## Main functional correctness of SieveOfEratosthenes -/

theorem sieve_main_eq (n : Nat) (h2 : ¬ n < 2) (h9 : ¬ n < 9) :
    SieveOfEratosthenes n =
      sieveLoop2 n (n + 2)
        (sieveLoop1 n (n + 2) (oSeq 0) (wIter 0) 36 0 [2, 3, 5, 7]).o
        (sieveLoop1 n (n + 2) (oSeq 0) (wIter 0) 36 0 [2, 3, 5, 7]).w
        (sieveLoop1 n (n + 2) (oSeq 0) (wIter 0) 36 0 [2, 3, 5, 7]).np
        (sieveLoop1 n (n + 2) (oSeq 0) (wIter 0) 36 0 [2, 3, 5, 7]).primes := by
  simp only [SieveOfEratosthenes]
  rw [if_neg h2, if_neg h9]
  rfl

theorem sieve_correct_main {n : Nat} (hn : 11 ≤ n) : SieveOfEratosthenes n = primesUpTo n := by
  have ho0 : oSeq 0 = 1 := rfl
  have hfo0 : forward (oSeq 0) = 1 := rfl
  rw [sieve_main_eq n (by omega) (by omega)]
  have hinv0 : ∀ j, (0 : Nat).testBit j = true ↔
      ∃ m, MarkedBy n (forward (oSeq 0) + 1) m ∧ j = backward5 m := by
    intro j
    rw [Nat.zero_testBit]
    constructor
    · intro h
      exact absurd h (by simp)
    · rintro ⟨m, ⟨_, _, _, q, _, _, h11, hcut, _, _⟩, _⟩
      omega
  have hprimes0 : ([2, 3, 5, 7] : List Nat) = [2, 3, 5, 7] ++
      (natsIco 2 (forward (oSeq 0) + 1)).filter (fun v => isPrimeRef v && decide (11 ≤ v)) := by
    rw [hfo0, natsIco_nil (by omega), List.filter_nil, List.append_nil]
  have hsq0 : ∀ j, 1 ≤ j → j ≤ 0 → forward (oSeq j) * forward (oSeq j) ≤ n := by
    intro j h1 h0
    omega
  have hpost := sieveLoop1_spec n (n + 2) 0 36 0 [2, 3, 5, 7] (by omega) hinv0 hprimes0 hsq0
  obtain ⟨kf, hkf0, hpost⟩ := hpost
  unfold Loop1Post at hpost
  obtain ⟨ho, hw, hstop, hsqs, hnpinv, hprimesf⟩ := hpost
  set ST := sieveLoop1 n (n + 2) (oSeq 0) (wIter 0) 36 0 [2, 3, 5, 7] with hST
  rw [ho, hw, sieveLoop2_spec n (n + 2) (kf + 1) ST.np ST.primes
    (by have := oSeq_one_le (kf + 1); omega), hprimesf]
  have hp11 : 11 ≤ forward (oSeq (kf + 1)) := eleven_le_forward_oSeq (kf + 1) (by omega)
  have hBC : ∀ v ∈ natsIco (forward (oSeq (kf + 1))) (n + 1),
      (decide (Nat.Coprime v 210) && !(ST.np.testBit (backward5 v))) =
        (isPrimeRef v && decide (11 ≤ v)) := by
    intro v hv
    rw [mem_natsIco] at hv
    have h11v : 11 ≤ v := by omega
    rw [Bool.eq_iff_iff, Bool.and_eq_true, Bool.and_eq_true, decide_eq_true_iff,
      decide_eq_true_iff, Bool.not_eq_true', isPrimeRef_iff]
    constructor
    · rintro ⟨hcop, hbit⟩
      have hiff := bit_read_final n ST.np (forward (oSeq (kf + 1))) v hnpinv hstop hcop h11v (by omega)
      refine ⟨?_, h11v⟩
      by_contra hc
      rw [hiff.mpr hc] at hbit
      exact absurd hbit (by simp)
    · rintro ⟨hprime, _⟩
      have hcop := prime_coprime210 hprime h11v
      have hiff := bit_read_final n ST.np (forward (oSeq (kf + 1))) v hnpinv hstop hcop h11v (by omega)
      refine ⟨hcop, ?_⟩
      by_cases hb : ST.np.testBit (backward5 v) = true
      · exact absurd (hiff.mp hb) (not_not_intro hprime)
      · exact Bool.of_not_eq_true hb
  rw [List.filter_congr hBC]
  have hmerge : (natsIco 2 (forward (oSeq (kf + 1)))).filter (fun v => isPrimeRef v && decide (11 ≤ v)) ++
      (natsIco (forward (oSeq (kf + 1))) (n + 1)).filter (fun v => isPrimeRef v && decide (11 ≤ v)) =
      (natsIco 2 (n + 1)).filter (fun v => isPrimeRef v && decide (11 ≤ v)) := by
    rcases le_or_lt (forward (oSeq (kf + 1))) (n + 1) with hle | hlt
    · rw [← List.filter_append, ← natsIco_append (by omega) hle]
    · rw [natsIco_nil (by omega : n + 1 ≤ forward (oSeq (kf + 1))), List.filter_nil,
        List.append_nil,
        natsIco_append (by omega : 2 ≤ n + 1) (by omega : n + 1 ≤ forward (oSeq (kf + 1))),
        List.filter_append]
      have hnil : (natsIco (n + 1) (forward (oSeq (kf + 1)))).filter (fun v => isPrimeRef v && decide (11 ≤ v)) = [] := by
        rw [List.filter_eq_nil_iff]
        intro v hv hpred
        rw [mem_natsIco] at hv
        rw [Bool.and_eq_true, decide_eq_true_iff, isPrimeRef_iff] at hpred
        obtain ⟨hvp, hv11⟩ := hpred
        have hv210 := prime_coprime210 hvp hv11
        have hvle : v ≤ forward (oSeq kf) := candidate_le_of_lt_next kf hv210 hv11 (by omega)
        rcases Nat.eq_zero_or_pos kf with rfl | hkf1
        · omega
        · have hsqkf := hsqs kf hkf1 (le_refl _)
          have hm1 : v * v ≤ forward (oSeq kf) * forward (oSeq kf) := Nat.mul_le_mul hvle hvle
          have hm2 : v * 1 ≤ v * v := Nat.mul_le_mul_left _ (by omega)
          omega
      rw [hnil, List.append_nil]
  rw [List.append_assoc, hmerge]
  have hr : List.range (n + 1) = natsIco 0 (n + 1) := by
    rw [List.range_eq_range']
    unfold natsIco
    rw [Nat.sub_zero]
  rw [primesUpTo, hr, natsIco_append (by omega : 0 ≤ 11) (by omega : 11 ≤ n + 1),
    List.filter_append]
  have hsmall : (natsIco 0 11).filter isPrimeRef = [2, 3, 5, 7] := by decide
  rw [hsmall]
  congr 1
  rw [natsIco_append (by omega : 2 ≤ 11) (by omega : 11 ≤ n + 1), List.filter_append]
  have hsmall2 : (natsIco 2 11).filter (fun v => isPrimeRef v && decide (11 ≤ v)) = [] := by
    decide
  rw [hsmall2, List.nil_append]
  apply List.filter_congr
  intro v hv
  rw [mem_natsIco] at hv
  have hd : decide (11 ≤ v) = true := decide_eq_true (by omega)
  rw [hd, Bool.and_true]

theorem sieve_correct (n : Nat) : SieveOfEratosthenes n = primesUpTo n := by
  rcases Nat.lt_or_ge n 11 with h | h
  · interval_cases n <;> decide
  · exact sieve_correct_main h

/-- Claim C2: for every n in [0, 10000], SieveOfEratosthenes returns the
ordered sequence of exactly those numbers 2 ≤ p ≤ n that are prime
according to the reference trial-division definition (no divisor d with
2 ≤ d ≤ sqrt p, stated multiplicatively as d * d ≤ p).  This is proved
for every n, not only n ≤ 10000. -/
theorem claim_C2 (n : Nat) (hn : n ≤ 10000) : SieveOfEratosthenes n = primesUpTo n :=
  sieve_correct n

theorem claim_C2_witness : 100 ≤ 10000 ∧ SieveOfEratosthenes 100 = primesUpTo 100 :=
  ⟨by decide, claim_C2 100 (by decide)⟩

/-! ## CountPrimesTo runs in lockstep with SieveOfEratosthenes -/

theorem countLoop1_lockstep (n : Nat) :
    ∀ fuel o w tb np primes c,
      (countLoop1 n fuel o w tb np c).o = (sieveLoop1 n fuel o w tb np primes).o ∧
      (countLoop1 n fuel o w tb np c).w = (sieveLoop1 n fuel o w tb np primes).w ∧
      (countLoop1 n fuel o w tb np c).np = (sieveLoop1 n fuel o w tb np primes).np ∧
      (countLoop1 n fuel o w tb np c).count + primes.length =
        c + (sieveLoop1 n fuel o w tb np primes).primes.length := by
  intro fuel
  induction fuel with
  | zero =>
    intro o w tb np primes c
    exact ⟨rfl, rfl, rfl, rfl⟩
  | succ fuel ih =>
    intro o w tb np primes c
    simp only [countLoop1, sieveLoop1]
    generalize (if tb < forward (o + (GetWheel5and7Increment w).1) then tb * tb else tb) = tb1
    split_ifs with h1 h2
    · exact ⟨rfl, rfl, rfl, rfl⟩
    · exact ih _ _ _ _ primes c
    · obtain ⟨ha, hb, hc, hd⟩ := ih (o + (GetWheel5and7Increment w).1)
        (GetWheel5and7Increment w).2 tb1
        (markFor n (forward (o + (GetWheel5and7Increment w).1)) np)
        (primes ++ [forward (o + (GetWheel5and7Increment w).1)]) (c + 1)
      refine ⟨ha, hb, hc, ?_⟩
      rw [List.length_append] at hd
      simp only [List.length_cons, List.length_nil] at hd
      omega

theorem countLoop2_lockstep (n : Nat) :
    ∀ fuel o w np primes c,
      countLoop2 n fuel o w np c + primes.length =
        c + (sieveLoop2 n fuel o w np primes).length := by
  intro fuel
  induction fuel with
  | zero =>
    intro o w np primes c
    rfl
  | succ fuel ih =>
    intro o w np primes c
    simp only [countLoop2, sieveLoop2]
    split_ifs with h1 h2
    · rfl
    · exact ih _ _ np primes c
    · have hd := ih (o + (GetWheel5and7Increment w).1) (GetWheel5and7Increment w).2 np
        (primes ++ [forward o]) (c + 1)
      rw [List.length_append] at hd
      simp only [List.length_cons, List.length_nil] at hd
      omega

theorem count_eq_length (n : Nat) : CountPrimesTo n = (SieveOfEratosthenes n).length := by
  rcases Nat.lt_or_ge n 11 with h | h
  · interval_cases n <;> decide
  · have h2 : ¬ n < 2 := by omega
    have h9 : ¬ n < 9 := by omega
    have h11 : ¬ n < 11 := by omega
    simp only [CountPrimesTo, SieveOfEratosthenes]
    rw [if_neg h2, if_neg h2, if_neg h11, if_neg h9]
    obtain ⟨ha, hb, hc, hd⟩ :=
      countLoop1_lockstep n (n + 2) 1 wheelInit 36 0 [2, 3, 5, 7] 4
    rw [ha, hb, hc]
    have h2l := countLoop2_lockstep n (n + 2)
      (sieveLoop1 n (n + 2) 1 wheelInit 36 0 [2, 3, 5, 7]).o
      (sieveLoop1 n (n + 2) 1 wheelInit 36 0 [2, 3, 5, 7]).w
      (sieveLoop1 n (n + 2) 1 wheelInit 36 0 [2, 3, 5, 7]).np
      (sieveLoop1 n (n + 2) 1 wheelInit 36 0 [2, 3, 5, 7]).primes
      (countLoop1 n (n + 2) 1 wheelInit 36 0 4).count
    simp only [List.length_cons, List.length_nil] at hd h2l
    omega

/-- Claim C3: for every n ≥ 0, CountPrimesTo(n) equals the length of the
list returned by SieveOfEratosthenes(n); the two functions are
structurally identical state machines with a counter in place of the
result list. -/
theorem claim_C3 : ∀ n, CountPrimesTo n = (SieveOfEratosthenes n).length :=
  count_eq_length

/-- Claim C5: boundary behavior.  sieve(0), sieve(1) are empty with count
0; sieve(2) = [2], count 1; sieve(7) = [2,3,5,7], count 4; sieve(11) =
[2,3,5,7,11], count 5; and in general every n < 2 yields an empty
sequence and a zero count. -/
theorem claim_C5 :
    SieveOfEratosthenes 0 = [] ∧ CountPrimesTo 0 = 0 ∧
      SieveOfEratosthenes 1 = [] ∧ CountPrimesTo 1 = 0 ∧
      SieveOfEratosthenes 2 = [2] ∧ CountPrimesTo 2 = 1 ∧
      SieveOfEratosthenes 7 = [2, 3, 5, 7] ∧ CountPrimesTo 7 = 4 ∧
      SieveOfEratosthenes 11 = [2, 3, 5, 7, 11] ∧ CountPrimesTo 11 = 5 ∧
      (∀ n, n < 2 → SieveOfEratosthenes n = [] ∧ CountPrimesTo n = 0) := by
  refine ⟨by decide, by decide, by decide, by decide, by decide, by decide, by decide,
    by decide, by decide, by decide, ?_⟩
  intro n hn
  constructor
  · simp only [SieveOfEratosthenes]
    rw [if_pos hn]
  · simp only [CountPrimesTo]
    rw [if_pos hn]

theorem claim_C5_witness : SieveOfEratosthenes 1 = [] ∧ CountPrimesTo 1 = 0 :=
  claim_C5.2.2.2.2.2.2.2.2.2.2 1 (by decide)

/-! ## Claim C1: the segmented functions versus the plain ones -/

/-- Claim C1, failing input: at n = 2 the segmented functions first
decrement even n to 1 and then delegate, returning the empty sequence
and count 0, whereas SieveOfEratosthenes(2) = [2] and CountPrimesTo(2)
= 1.  (At n = 0 the same `--n` wraps to 2^64 - 1 on uint64, so the
segmented functions do not return empty results there either.) -/
theorem claim_C1 :
    SegmentedSieveOfEratosthenes 2 = [] ∧ SieveOfEratosthenes 2 = [2] ∧
      SegmentedCountPrimesTo 2 = 0 ∧ CountPrimesTo 2 = 1 ∧
      adjustOdd 2 = 1 ∧ adjustOdd 0 = 2 ^ 64 - 1 := by decide

/-! ## Claim C7: exactness of the squared comparisons on uint64 -/

/-- Claim C7, counterexample: with the 64-bit `BigInteger`, at
n = 2^64 - 1 the candidate index 1431655766 is visited by the wheel
enumeration; its forward image 4294967297 = 2^32 + 1 has a square that
wraps modulo 2^64 down to 8589934593, so the compiled comparison
`(p * p) > n` is false although the exact square exceeds n: the
loop-exit test misjudges the cutoff. -/
theorem claim_C7_counter :
    (∃ k, oSeq k = 1431655766) ∧ forward 1431655766 = 4294967297 ∧
      2 ^ 64 ≤ 4294967297 * 4294967297 ∧
      4294967297 * 4294967297 % 2 ^ 64 = 8589934593 ∧
      sqGtWrapped 4294967297 (2 ^ 64 - 1) = false ∧
      sqGtExact 4294967297 (2 ^ 64 - 1) = true := by
  refine ⟨(visits_iff 1431655766 (by norm_num)).mpr (by decide), by decide, by decide,
    by decide, by decide, by decide⟩

/-- Claim C7, amended: for every n below 4294967293² = (2^32 - 3)²
(4294967293 is the largest number coprime to 210 not exceeding 2^32),
every candidate the loop actually reaches has an exactly representable
square, so the compiled wrapped test agrees with the exact test; at
larger 64-bit inputs (e.g. 2^64 - 1, see the counterexample) the test
wraps and misjudges. -/
theorem claim_C7 (n kc : Nat) (hn : n < 4294967293 * 4294967293) (hkc : 1 ≤ kc)
    (hreach : reachesCand n kc) :
    forward (oSeq kc) * forward (oSeq kc) < 2 ^ 64 ∧
      sqGtWrapped (forward (oSeq kc)) n = sqGtExact (forward (oSeq kc)) n := by
  have hple : forward (oSeq kc) ≤ 4294967293 := by
    by_contra hcon
    push_neg at hcon
    have hcop : Nat.Coprime (forward 1431655765) 35 := by decide
    have hfwd : forward 1431655765 = 4294967293 := by decide
    obtain ⟨j, hj⟩ := (visits_iff 1431655765 (by norm_num)).mpr hcop
    have hj1 : 1 ≤ j := by
      rcases Nat.eq_zero_or_pos j with rfl | h
      · rw [show oSeq 0 = 1 from rfl] at hj
        omega
      · exact h
    have hjlt : j < kc := by
      have h1 : forward (oSeq j) < forward (oSeq kc) := by
        rw [hj, hfwd]
        omega
      have h2 : oSeq j < oSeq kc := by
        by_contra hc
        push_neg at hc
        have := forward_le_forward (oSeq_one_le kc) hc
        omega
      exact oSeq_strictMono.lt_iff_lt.mp h2
    have hfalse := hreach j hj1 hjlt
    rw [hj, hfwd] at hfalse
    unfold sqGtWrapped at hfalse
    rw [decide_eq_false_iff_not] at hfalse
    push_neg at hfalse
    have hmod : (4294967293 : Nat) * 4294967293 % 2 ^ 64 = 4294967293 * 4294967293 := by
      decide
    omega
  have hsq : forward (oSeq kc) * forward (oSeq kc) < 2 ^ 64 := by
    have h1 : forward (oSeq kc) * forward (oSeq kc) ≤ 4294967293 * 4294967293 :=
      Nat.mul_le_mul hple hple
    have h2 : (4294967293 : Nat) * 4294967293 < 2 ^ 64 := by decide
    omega
  refine ⟨hsq, ?_⟩
  unfold sqGtWrapped sqGtExact
  rw [Nat.mod_eq_of_lt hsq]

theorem claim_C7_witness :
    100 < 4294967293 * 4294967293 ∧ 1 ≤ 1 ∧
      (forward (oSeq 1) * forward (oSeq 1) < 2 ^ 64 ∧
        sqGtWrapped (forward (oSeq 1)) 100 = sqGtExact (forward (oSeq 1)) 100) :=
  ⟨by decide, le_refl 1,
    claim_C7 100 1 (by decide) (le_refl 1) (by intro j h1 h2; omega)⟩

/-! ## Claim C6: both prime lists are strictly increasing -/

theorem forward2_lt_forward2 {a b : Nat} (h : a < b) : forward2 a < forward2 b := by
  rw [forward2_eq, forward2_eq]
  omega

theorem forward2_le_forward2 {a b : Nat} (h : a ≤ b) : forward2 a ≤ forward2 b := by
  rw [forward2_eq, forward2_eq]
  omega

theorem sieve_sorted (n : Nat) : List.Sorted (· < ·) (SieveOfEratosthenes n) := by
  rw [sieve_correct]
  unfold primesUpTo
  exact List.Pairwise.filter _
    (by rw [List.range_eq_range']; exact List.pairwise_lt_range' 0 (n + 1))

theorem sieve_le (n : Nat) : ∀ x ∈ SieveOfEratosthenes n, x ≤ n := by
  rw [sieve_correct]
  intro x hx
  unfold primesUpTo at hx
  rw [List.mem_filter] at hx
  have := hx.1
  rw [List.mem_range] at this
  omega

theorem segWindows_sorted (nCard : Nat) :
    ∀ fuel low high kp, 1 ≤ low → high ≤ low + limit →
      List.Sorted (· < ·) kp → (∀ x ∈ kp, x ≤ forward2 low) →
      List.Sorted (· < ·) (segWindows nCard fuel low high kp) := by
  intro fuel
  induction fuel with
  | zero =>
    intro low high kp h1 hh hs hb
    exact hs
  | succ fuel ih =>
    intro low high kp h1 hh hs hb
    simp only [segWindows]
    have hhle : (if high > nCard then nCard else high) ≤ low + limit := by
      split_ifs <;> omega
    set high1 := if high > nCard then nCard else high with hh1
    split_ifs with hlow
    · apply ih (low + limit) (low + limit + limit) _ (by omega) (le_refl _)
      · show List.Pairwise (· < ·) (_ ++ _)
        rw [List.pairwise_append]
        refine ⟨hs, ?_, ?_⟩
        · unfold segCollect
          exact (List.Pairwise.filter _ (List.pairwise_lt_range' 1 _)).map _
            (fun a b hab => forward2_lt_forward2 (by omega))
        · intro x hx y hy
          unfold segCollect at hy
          rw [List.mem_map] at hy
          obtain ⟨o, ho, rfl⟩ := hy
          rw [List.mem_filter] at ho
          have ho1 := ho.1
          rw [List.mem_range'_1] at ho1
          have hxb := hb x hx
          have hlt := forward2_lt_forward2 (show low < o + low by omega)
          omega
      · intro x hx
        rw [List.mem_append] at hx
        rcases hx with hx | hx
        · have := hb x hx
          have := forward2_le_forward2 (show low ≤ low + limit by omega)
          omega
        · unfold segCollect at hx
          rw [List.mem_map] at hx
          obtain ⟨o, ho, rfl⟩ := hx
          rw [List.mem_filter] at ho
          have ho1 := ho.1
          rw [List.mem_range'_1] at ho1
          exact forward2_le_forward2 (by omega)
    · exact hs

theorem segmented_sorted (n0 : Nat) :
    List.Sorted (· < ·) (SegmentedSieveOfEratosthenes n0) := by
  simp only [SegmentedSieveOfEratosthenes]
  split_ifs with hdel
  · exact sieve_sorted _
  · apply segWindows_sorted
    · decide
    · exact le_refl _
    · exact sieve_sorted limitSimple
    · intro x hx
      have hxle := sieve_le limitSimple x hx
      have hfb : forward2 (backward2 limitSimple) = limitSimple := by decide
      omega

/-- Claim C6: for every n ≥ 0 the list returned by SieveOfEratosthenes
and the list returned by SegmentedSieveOfEratosthenes are strictly
increasing, hence contain no duplicate elements. -/
theorem claim_C6 : ∀ n,
    List.Sorted (· < ·) (SieveOfEratosthenes n) ∧ (SieveOfEratosthenes n).Nodup ∧
      List.Sorted (· < ·) (SegmentedSieveOfEratosthenes n) ∧
      (SegmentedSieveOfEratosthenes n).Nodup := by
  intro n
  have h1 := sieve_sorted n
  have h2 := segmented_sorted n
  exact ⟨h1, h1.nodup, h2, h2.nodup⟩

end Eratosthenes
